import Mathlib

/-!
Verification of the Omeka-S scripting repository's streaming
extraction-and-merge pipeline (`add_contributors_to_itemset.py`), together
with the auxiliary write path of `SaveItemUnchanged.py`.

The Python code is shallowly embedded: JSON documents become an inductive
`Json` type, the remote repository becomes an explicit key-value `World`,
and every remote interaction is recorded in an explicit trace of
`RemoteOp`s.  Python-level failures (TypeError / KeyError on malformed
JSON) are modelled with `Except Unit`; caught request failures
(`requests.exceptions.RequestException`) are modelled by absent items in
the `World` and by explicit probe / fetch result types.
-/

namespace Omeka

/-- JSON values as delivered by `response.json()`. Objects keep key order
(Python dicts preserve insertion order and have unique keys). -/
inductive Json where
  | null
  | bool (b : Bool)
  | num (n : Int)
  | str (s : String)
  | arr (elems : List Json)
  | obj (fields : List (String × Json))

mutual

/-- Structural equality on JSON values (Python `==` on parsed JSON). -/
def Json.beq : Json → Json → Bool
  | .null, .null => true
  | .bool a, .bool b => a == b
  | .num a, .num b => a == b
  | .str a, .str b => a == b
  | .arr xs, .arr ys => beqArr xs ys
  | .obj fs, .obj gs => beqObj fs gs
  | _, _ => false

def beqArr : List Json → List Json → Bool
  | [], [] => true
  | x :: xs, y :: ys => Json.beq x y && beqArr xs ys
  | _, _ => false

def beqObj : List (String × Json) → List (String × Json) → Bool
  | [], [] => true
  | (k, v) :: fs, (l, w) :: gs => k == l && (Json.beq v w && beqObj fs gs)
  | _, _ => false

end

mutual

theorem Json.beq_iff : ∀ a b : Json, (Json.beq a b = true) ↔ a = b
  | .null, b => by cases b <;> simp [Json.beq]
  | .bool a, b => by cases b <;> simp [Json.beq]
  | .num a, b => by cases b <;> simp [Json.beq]
  | .str a, b => by cases b <;> simp [Json.beq]
  | .arr xs, .null => by simp [Json.beq]
  | .arr xs, .bool _ => by simp [Json.beq]
  | .arr xs, .num _ => by simp [Json.beq]
  | .arr xs, .str _ => by simp [Json.beq]
  | .arr xs, .arr ys => by
      simp only [Json.beq, Json.arr.injEq]
      exact beqArr_iff xs ys
  | .arr xs, .obj _ => by simp [Json.beq]
  | .obj fs, .null => by simp [Json.beq]
  | .obj fs, .bool _ => by simp [Json.beq]
  | .obj fs, .num _ => by simp [Json.beq]
  | .obj fs, .str _ => by simp [Json.beq]
  | .obj fs, .arr _ => by simp [Json.beq]
  | .obj fs, .obj gs => by
      simp only [Json.beq, Json.obj.injEq]
      exact beqObj_iff fs gs

theorem beqArr_iff : ∀ xs ys : List Json, (beqArr xs ys = true) ↔ xs = ys
  | [], [] => by simp [beqArr]
  | [], _ :: _ => by simp [beqArr]
  | _ :: _, [] => by simp [beqArr]
  | x :: xs, y :: ys => by
      simp only [beqArr, Bool.and_eq_true, List.cons.injEq]
      rw [Json.beq_iff x y, beqArr_iff xs ys]

theorem beqObj_iff :
    ∀ fs gs : List (String × Json), (beqObj fs gs = true) ↔ fs = gs
  | [], [] => by simp [beqObj]
  | [], _ :: _ => by simp [beqObj]
  | _ :: _, [] => by simp [beqObj]
  | (k, v) :: fs, (l, w) :: gs => by
      simp only [beqObj, Bool.and_eq_true, List.cons.injEq, Prod.mk.injEq,
        beq_iff_eq]
      rw [Json.beq_iff v w, beqObj_iff fs gs, and_assoc]

end

instance : DecidableEq Json := fun a b =>
  decidable_of_iff (Json.beq a b = true) (Json.beq_iff a b)

/-- First-match association-list lookup; Python dicts have unique keys, so
this models `d[k]` / `d.get(k)` on an object's field list. -/
def lookupStr : List (String × Json) → String → Option Json
  | [], _ => none
  | (k, v) :: rest, key => if k = key then some v else lookupStr rest key

/-- Model of `d.get(k)` on a JSON value known to be a dict (guarded by
`isinstance(..., dict)` in the source); `none` on non-objects. -/
def Json.get? : Json → String → Option Json
  | .obj fs, k => lookupStr fs k
  | _, _ => none

/-- Model of `d.get(k, default)`. -/
def jGetD (fs : List (String × Json)) (k : String) (d : Json) : Json :=
  (lookupStr fs k).getD d

/-- Python truthiness of a JSON value (`if value_resource_id:`). -/
def Json.truthy : Json → Bool
  | .null => false
  | .bool b => b
  | .num n => decide (n ≠ 0)
  | .str s => decide (s ≠ "")
  | .arr xs => !xs.isEmpty
  | .obj fs => !fs.isEmpty

/-- Python hashability of a JSON value: lists and dicts are unhashable,
so testing one against a set raises `TypeError`. -/
def Json.hashable : Json → Bool
  | .arr _ => false
  | .obj _ => false
  | _ => true

/-- Substring test, modelling Python's `needle in haystack` on strings. -/
def strContains (haystack needle : String) : Bool :=
  needle.isEmpty || decide (2 ≤ (haystack.splitOn needle).length)

/-- Evaluating `property_name in item` followed by `item[property_name]`
with Python semantics.  Returns `some v` when the field is present and
readable, `none` when the membership test is false, and a `TypeError`
(`Except.error`) when the item is a non-container or when the membership
test succeeds on a list/string (whose subscript by a string name raises). -/
def pyGetField (item : Json) (p : String) : Except Unit (Option Json) :=
  match item with
  | .obj fs => .ok (lookupStr fs p)
  | .arr xs => if (Json.str p) ∈ xs then .error () else .ok none
  | .str s => if strContains s p then .error () else .ok none
  | _ => .error ()

/-- Per-relationship-field extraction state of
`process_contributors_streaming`: the run-long seen-set
(`processed_contributors[p]`), the current page's newly-seen identifiers
(`page_contributors[p]`), and the run-long `stats[p]` found counter.
Python sets are modelled as insertion-ordered duplicate-free lists. -/
structure ExtState where
  processed : List Json
  pageNew : List Json
  found : Nat
  deriving DecidableEq

def initExt : ExtState := ⟨[], [], 0⟩

/-- One entry of a relationship-field list (the innermost loop of
`process_contributors_streaming`): skip non-dicts and entries whose
`type` is not `resource:item` or whose `value_resource_id` is falsy; an
accepted identifier is then tested against the run-long seen-set — in
Python that test hashes it, raising `TypeError` when the identifier is
an unhashable list or dict — and a fresh identifier is added to both
the page set and the seen-set. -/
def processEntry (st : ExtState) (c : Json) : Except Unit ExtState :=
  match c with
  | .obj _ =>
    match c.get? "value_resource_id" with
    | some vid =>
      if c.get? "type" = some (.str "resource:item") ∧ vid.truthy then
        if vid.hashable then
          if vid ∈ st.processed then .ok st
          else .ok ⟨st.processed ++ [vid], st.pageNew ++ [vid],
            st.found + 1⟩
        else .error ()
      else .ok st
    | none => .ok st
  | _ => .ok st

/-- The entry loop `for contributor in contributors`. -/
def processEntries (st : ExtState) : List Json → Except Unit ExtState
  | [] => .ok st
  | c :: cs =>
    match processEntry st c with
    | .error e => .error e
    | .ok st' => processEntries st' cs

/-- One (item, field) step: read the field with Python semantics; a list
value is scanned entry by entry, a present non-list value and an absent
field contribute nothing. -/
def processItemField (item : Json) (p : String) (st : ExtState) :
    Except Unit ExtState :=
  match pyGetField item p with
  | .error e => .error e
  | .ok none => .ok st
  | .ok (some (.arr cs)) => processEntries st cs
  | .ok (some _) => .ok st

/-- Pointwise update of a per-field state map. -/
def updFn (m : String → ExtState) (p : String) (v : ExtState) :
    String → ExtState :=
  fun q => if q = p then v else m q

/-- The field loop `for property_name in property_names` for one item. -/
def processItem (item : Json) : List String → (String → ExtState) →
    Except Unit (String → ExtState)
  | [], st => .ok st
  | p :: ps, st =>
    match processItemField item p (st p) with
    | .error e => .error e
    | .ok s => processItem item ps (updFn st p s)

/-- The item loop of one page. -/
def extractPage (fields : List String) :
    List Json → (String → ExtState) → Except Unit (String → ExtState)
  | [], st => .ok st
  | item :: items, st =>
    match processItem item fields st with
    | .error e => .error e
    | .ok st' => extractPage fields items st'

/-- Fresh empty page-local sets at the start of each page. -/
def resetPage (st : String → ExtState) : String → ExtState :=
  fun p => { st p with pageNew := [] }

/-- Remote interactions performed by the pipeline. -/
inductive RemoteOp where
  | probeSet (itemsetId : Int)
  | getPage (page : Nat)
  | getItem (id : Json)
  | putItem (id : Json) (payload : Json)
  deriving DecidableEq

/-- The remote repository, keyed by item identifier value; `none` stands
for a fetch that raises `RequestException` (missing item or network
error). -/
def World : Type := Json → Option Json

def updWorld (w : World) (id : Json) (v : Json) : World :=
  fun j => if j = id then some v else w j

/-- Model of `[s['o:id'] for s in current_itemsets]`: `KeyError` on an entry
without `o:id`, `TypeError` on a non-object entry. -/
def entryIds : List Json → Except Unit (List Json)
  | [] => .ok []
  | s :: rest =>
    match s with
    | .obj gs =>
      match lookupStr gs "o:id" with
      | some j =>
        match entryIds rest with
        | .ok js => .ok (j :: js)
        | .error e => .error e
      | none => .error ()
    | _ => .error ()

/-- The `fields_to_remove` list of `add_items_to_itemset`: keys dropped from the
PUT body. -/
def fields_to_remove : List String :=
  ["@context", "@id", "@type", "o:id", "o:owner",
   "o:created", "o:modified", "thumbnail_display_urls",
   "o:primary_media", "o:media", "o:site", "@reverse"]

/-- Model of `item_data['o:item_set'] = v`: replace the binding in place when the
key exists, else append it. -/
def setKey (fs : List (String × Json)) (k : String) (v : Json) :
    List (String × Json) :=
  if fs.any (fun kv => kv.1 = k) then
    fs.map (fun kv => if kv.1 = k then (k, v) else kv)
  else fs ++ [(k, v)]

/-- The appended membership reference, with both `@id` and `o:id`. -/
def newItemSetEntry (apiUrl : String) (itemsetId : Int) : Json :=
  .obj [("@id", .str (apiUrl ++ "/item_sets/" ++ toString itemsetId)),
        ("o:id", .num itemsetId)]

/-- The PUT body of `add_items_to_itemset`: the membership list with the
new reference appended, then the dict comprehension dropping every key of
`fields_to_remove`. -/
def membershipPutPayload (apiUrl : String) (itemsetId : Int)
    (fs : List (String × Json)) (xs : List Json) : List (String × Json) :=
  (setKey fs "o:item_set"
      (.arr (xs ++ [newItemSetEntry apiUrl itemsetId]))).filter
    (fun kv => decide (kv.1 ∉ fields_to_remove))

structure WriterState where
  world : World
  success : Nat
  already : Nat
  errors : Nat
  trace : List RemoteOp

/-- One iteration of the item loop of `add_items_to_itemset` (the
`ensureMember` contract): fetch the item fresh (a request failure is
caught and counted as an error), check the current membership list, and
when absent append the new reference, strip `fields_to_remove` and PUT
the full resource back. -/
def addOneItem (apiUrl : String) (itemsetId : Int) (ws : WriterState)
    (itemId : Json) : Except Unit WriterState :=
  let fetched := ws.trace ++ [.getItem itemId]
  match ws.world itemId with
  | none => .ok { ws with errors := ws.errors + 1, trace := fetched }
  | some itemData =>
    match itemData with
    | .obj fs =>
      match jGetD fs "o:item_set" (.arr []) with
      | .arr xs =>
        match entryIds xs with
        | .error e => .error e
        | .ok ids =>
          if Json.num itemsetId ∈ ids then
            .ok { ws with already := ws.already + 1,
                          success := ws.success + 1, trace := fetched }
          else
            let payload :=
              Json.obj (membershipPutPayload apiUrl itemsetId fs xs)
            .ok { world := updWorld ws.world itemId payload,
                  success := ws.success + 1, already := ws.already,
                  errors := ws.errors,
                  trace := fetched ++ [.putItem itemId payload] }
      | _ => .error ()
    | _ => .error ()

structure AddStats where
  added : Nat
  skipped : Nat
  errors : Nat
  deriving DecidableEq

def addItemsLoop (apiUrl : String) (itemsetId : Int) (ws : WriterState) :
    List Json → Except Unit WriterState
  | [] => .ok ws
  | id :: ids =>
    match addOneItem apiUrl itemsetId ws id with
    | .error e => .error e
    | .ok ws' => addItemsLoop apiUrl itemsetId ws' ids

/-- Model of `add_items_to_itemset(item_ids, itemset_id)`: returns
`added = success - already`, `skipped = already`, `errors`, together with
the updated remote state and the trace of remote operations. -/
def add_items_to_itemset (apiUrl : String) (world : World)
    (itemIds : List Json) (itemsetId : Int) :
    Except Unit (AddStats × World × List RemoteOp) :=
  match addItemsLoop apiUrl itemsetId ⟨world, 0, 0, 0, []⟩ itemIds with
  | .error e => .error e
  | .ok ws =>
    .ok (⟨ws.success - ws.already, ws.already, ws.errors⟩, ws.world, ws.trace)

/-- The `read_only_fields` list of `OmekaSClient.update_item` in
`SaveItemUnchanged.py`. -/
def read_only_fields : List String :=
  ["o:id", "o:created", "o:modified", "o:owner", "o:resource_class",
   "o:resource_template"]

/-- The PUT body of `OmekaSClient.update_item`: sequential
`update_data.pop(field, None)` over `read_only_fields` (equivalent to
one filter on a unique-keyed dict). -/
def update_item_payload (fs : List (String × Json)) :
    List (String × Json) :=
  fs.filter (fun kv => decide (kv.1 ∉ read_only_fields))

/-- The per-field statistics dictionary of
`process_contributors_streaming`. -/
structure Stats where
  found : Nat
  added : Nat
  skipped : Nat
  errors : Nat
  deriving DecidableEq

def zeroStats : Stats := ⟨0, 0, 0, 0⟩

/-- Pointwise update of a per-field map. -/
def updMap {α : Type} (m : String → α) (p : String) (v : α) :
    String → α :=
  fun q => if q = p then v else m q

/-- Coordinator state between pages: per-field extraction state
(seen-sets), per-field write statistics, the per-field list of all
identifiers handed to the membership writer so far, the remote state and
the trace. -/
structure RunState where
  ext : String → ExtState
  stats : String → Stats
  dispatched : String → List Json
  world : World
  trace : List RemoteOp

def initRun (world : World) : RunState :=
  ⟨fun _ => initExt, fun _ => zeroStats, fun _ => [], world, []⟩

/-- The per-page dispatch loop over `page_contributors.items()` (dict
order = `property_names` order): each non-empty page set is sent to
`add_items_to_itemset` and the batch statistics accumulated. -/
def dispatchLoop (apiUrl : String) (targetMap : String → Int)
    (rs : RunState) : List String → Except Unit RunState
  | [] => .ok rs
  | p :: ps =>
    let pn := (rs.ext p).pageNew
    if pn.isEmpty then dispatchLoop apiUrl targetMap rs ps
    else
      match add_items_to_itemset apiUrl rs.world pn (targetMap p) with
      | .error e => .error e
      | .ok (bs, w', tr) =>
        let s := rs.stats p
        dispatchLoop apiUrl targetMap
          { rs with
            world := w'
            trace := rs.trace ++ tr
            dispatched := updMap rs.dispatched p (rs.dispatched p ++ pn)
            stats := updMap rs.stats p
              ⟨s.found, s.added + bs.added, s.skipped + bs.skipped,
               s.errors + bs.errors⟩ } ps

/-- One page of the main loop: record the page request, extract into
fresh page sets, then dispatch the newly seen identifiers. -/
def processPage (apiUrl : String) (fields : List String)
    (targetMap : String → Int) (rs : RunState) (page : Nat × List Json) :
    Except Unit RunState :=
  match extractPage fields page.2 (resetPage rs.ext) with
  | .error e => .error e
  | .ok ext' =>
    dispatchLoop apiUrl targetMap
      { rs with ext := ext', trace := rs.trace ++ [.getPage page.1] }
      fields

def streamFold (apiUrl : String) (fields : List String)
    (targetMap : String → Int) (rs : RunState) :
    List (Nat × List Json) → Except Unit RunState
  | [] => .ok rs
  | pg :: pgs =>
    match processPage apiUrl fields targetMap rs pg with
    | .error e => .error e
    | .ok rs' => streamFold apiUrl fields targetMap rs' pgs

/-- Model of `process_contributors_streaming` over an already-retrieved page
stream. -/
def streamRun (apiUrl : String) (fields : List String)
    (targetMap : String → Int) (world : World)
    (pages : List (Nat × List Json)) : Except Unit RunState :=
  streamFold apiUrl fields targetMap (initRun world) pages

/-- The statistics dictionary returned for field `p` (the found counter
lives in the extraction state). -/
def returnedStats (rs : RunState) (p : String) : Stats :=
  { rs.stats p with found := (rs.ext p).found }

/-- One page request of `get_items_generator`: parsed body on success,
`fail` for a network error or a `raise_for_status` failure. -/
inductive FetchResult where
  | ok (items : List Json)
  | fail
  deriving DecidableEq

inductive EndKind where
  | emptyPage
  | requestFailed
  | fuelExhausted
  deriving DecidableEq

/-- Model of `get_items_generator`: pull pages starting at `page`, advancing the
cursor after each non-empty page; stop at the first empty page (normal
end of stream) or at a failed request. `fuel` bounds the observation of
the unbounded `while True` loop. -/
def genPagesAux (fetch : Nat → FetchResult) :
    Nat → Nat → List (Nat × List Json) × EndKind
  | 0, _ => ([], .fuelExhausted)
  | fuel + 1, page =>
    match fetch page with
    | .fail => ([], .requestFailed)
    | .ok [] => ([], .emptyPage)
    | .ok items =>
      let rest := genPagesAux fetch fuel (page + 1)
      ((page, items) :: rest.1, rest.2)

def get_items_generator (fetch : Nat → FetchResult) (fuel : Nat) :
    List (Nat × List Json) × EndKind :=
  genPagesAux fetch fuel 1

/-- The generator composed with the streaming coordinator: the retrieved
pages are processed in order; the terminating condition is reported
alongside. -/
def pipelineRun (apiUrl : String) (fields : List String)
    (targetMap : String → Int) (world : World)
    (fetch : Nat → FetchResult) (fuel : Nat) :
    Except Unit RunState × EndKind :=
  (streamRun apiUrl fields targetMap world
      (get_items_generator fetch fuel).1,
   (get_items_generator fetch fuel).2)

/-- Result of the existence probe's GET request. -/
inductive ProbeResult where
  | okStatus (code : Nat)
  | netErr
  deriving DecidableEq

/-- Model of `verify_itemset_exists`: one GET probe; `raise_for_status` raises for
any status ≥ 400, and every `RequestException` (a network error as much
as a not-found) is caught and turned into `False`. -/
def verify_itemset_exists (probe : Int → ProbeResult)
    (itemsetId : Int) : Bool :=
  match probe itemsetId with
  | .okStatus code => decide (code < 400)
  | .netErr => false

/-- Model of `process_contributor_type`: probe the single target item set, then
stream; on a failed probe return zeroed statistics without any further
remote interaction. -/
def process_contributor_type (apiUrl : String)
    (probe : Int → ProbeResult) (fetch : Nat → FetchResult) (fuel : Nat)
    (world : World) (propertyName : String) (targetItemsetId : Int) :
    Except Unit (Stats × World × List RemoteOp) :=
  if verify_itemset_exists probe targetItemsetId then
    match streamRun apiUrl [propertyName] (fun _ => targetItemsetId)
        world (get_items_generator fetch fuel).1 with
    | .error e => .error e
    | .ok rs =>
      .ok (returnedStats rs propertyName, rs.world,
           .probeSet targetItemsetId :: rs.trace)
  else
    .ok (zeroStats, world, [.probeSet targetItemsetId])

/-- An item-set entry carrying an `o:id` key (so `s['o:id']` cannot
raise). -/
def entryHasId : Json → Bool
  | .obj gs => (lookupStr gs "o:id").isSome
  | _ => false

def entryOid : Json → Json
  | .obj gs => (lookupStr gs "o:id").getD .null
  | _ => .null

/-- A fetched item value on which the writer cannot crash: an object
whose (possibly defaulted) membership value is a list of entries that
carry `o:id`. -/
def wfVal : Option Json → Bool
  | some (.obj fs) =>
    match jGetD fs "o:item_set" (.arr []) with
    | .arr xs => xs.all entryHasId
    | _ => false
  | _ => false

/-- The fetched value for an item is well-formed and its membership list
already names item set `c`. -/
def memberVal (o : Option Json) (c : Int) : Bool :=
  match o with
  | some (.obj fs) =>
    match jGetD fs "o:item_set" (.arr []) with
    | .arr xs => xs.all entryHasId && decide (Json.num c ∈ xs.map entryOid)
    | _ => false
  | _ => false

/-! ### Extraction lemmas -/

/-- Shape of every extraction step for one field: the run-long seen-set
and the page-local set grow by one common suffix of identifiers that were
fresh when appended, and the found counter grows by its length. -/
def StepShape (s s' : ExtState) : Prop :=
  ∃ d, s'.processed = s.processed ++ d ∧ s'.pageNew = s.pageNew ++ d ∧
    s'.found = s.found + d.length ∧
    (s.processed.Nodup → s'.processed.Nodup)

theorem stepShape_refl (s : ExtState) : StepShape s s :=
  ⟨[], by simp, by simp, by simp, fun h => h⟩

theorem stepShape_trans {a b c : ExtState} (h1 : StepShape a b)
    (h2 : StepShape b c) : StepShape a c := by
  obtain ⟨d1, hp1, hn1, hf1, hd1⟩ := h1
  obtain ⟨d2, hp2, hn2, hf2, hd2⟩ := h2
  exact ⟨d1 ++ d2, by simp [hp2, hp1], by simp [hn2, hn1],
    by simp [hf2, hf1, Nat.add_assoc], fun h => hd2 (hd1 h)⟩

theorem stepShape_processEntry {st s : ExtState} {c : Json}
    (h : processEntry st c = .ok s) : StepShape st s := by
  cases c with
  | obj fs =>
    cases hv : lookupStr fs "value_resource_id" with
    | none =>
      simp only [processEntry, Json.get?, hv] at h
      cases h
      exact stepShape_refl st
    | some vid =>
      simp only [processEntry, Json.get?, hv] at h
      split at h
      · split at h
        · split at h
          · cases h
            exact stepShape_refl st
          · rename_i hm
            cases h
            refine ⟨[vid], rfl, rfl, by simp, fun hnd => ?_⟩
            simp [List.nodup_append, hnd, hm]
        · cases h
      · cases h
        exact stepShape_refl st
  | null => cases h; exact stepShape_refl st
  | bool b => cases h; exact stepShape_refl st
  | num n => cases h; exact stepShape_refl st
  | str s2 => cases h; exact stepShape_refl st
  | arr xs => cases h; exact stepShape_refl st

theorem stepShape_processEntries (cs : List Json) :
    ∀ st s, processEntries st cs = .ok s → StepShape st s := by
  induction cs with
  | nil => intro st s h; cases h; exact stepShape_refl st
  | cons c cs ih =>
    intro st s h
    unfold processEntries at h
    cases he : processEntry st c with
    | error e => rw [he] at h; cases h
    | ok st1 =>
      rw [he] at h
      exact stepShape_trans (stepShape_processEntry he) (ih st1 s h)

theorem stepShape_processItemField {item : Json} {p : String}
    {st s : ExtState} (h : processItemField item p st = .ok s) :
    StepShape st s := by
  unfold processItemField at h
  cases hg : pyGetField item p with
  | error e => rw [hg] at h; cases h
  | ok ov =>
    rw [hg] at h
    cases ov with
    | none => cases h; exact stepShape_refl st
    | some v =>
      cases v with
      | arr cs => exact stepShape_processEntries cs st s h
      | null => cases h; exact stepShape_refl st
      | bool b => cases h; exact stepShape_refl st
      | num n => cases h; exact stepShape_refl st
      | str s2 => cases h; exact stepShape_refl st
      | obj fs => cases h; exact stepShape_refl st

theorem processItem_stepShape {item : Json} (ps : List String) :
    ∀ st st', processItem item ps st = .ok st' →
      ∀ p, StepShape (st p) (st' p) := by
  induction ps with
  | nil => intro st st' h p; cases h; exact stepShape_refl _
  | cons q ps ih =>
    intro st st' h p
    unfold processItem at h
    cases hf : processItemField item q (st q) with
    | error e => rw [hf] at h; cases h
    | ok s =>
      rw [hf] at h
      have ihp := ih (updFn st q s) st' h p
      by_cases hpq : p = q
      · subst hpq
        have hu : updFn st p s p = s := by simp [updFn]
        rw [hu] at ihp
        exact stepShape_trans (stepShape_processItemField hf) ihp
      · have hu : updFn st q s p = st p := by simp [updFn, hpq]
        rw [hu] at ihp
        exact ihp

theorem processItem_untouched {item : Json} (ps : List String) :
    ∀ st st', processItem item ps st = .ok st' →
      ∀ p, p ∉ ps → st' p = st p := by
  induction ps with
  | nil => intro st st' h p _; cases h; rfl
  | cons q ps ih =>
    intro st st' h p hp
    unfold processItem at h
    cases hf : processItemField item q (st q) with
    | error e => rw [hf] at h; cases h
    | ok s =>
      rw [hf] at h
      have hne : p ∉ ps := fun hmem => hp (List.mem_cons_of_mem q hmem)
      have := ih (updFn st q s) st' h p hne
      rw [this]
      have hpq : p ≠ q := fun he => hp (he ▸ List.mem_cons_self q ps)
      simp [updFn, hpq]

theorem extractPage_stepShape (fields : List String)
    (items : List Json) : ∀ st st',
    extractPage fields items st = .ok st' →
    ∀ p, StepShape (st p) (st' p) := by
  induction items with
  | nil => intro st st' h p; cases h; exact stepShape_refl _
  | cons item items ih =>
    intro st st' h p
    unfold extractPage at h
    cases hi : processItem item fields st with
    | error e => rw [hi] at h; cases h
    | ok st1 =>
      rw [hi] at h
      exact stepShape_trans (processItem_stepShape fields st st1 hi p)
        (ih st1 st' h p)

theorem extractPage_untouched (fields : List String)
    (items : List Json) : ∀ st st',
    extractPage fields items st = .ok st' →
    ∀ p, p ∉ fields → st' p = st p := by
  induction items with
  | nil => intro st st' h p _; cases h; rfl
  | cons item items ih =>
    intro st st' h p hp
    unfold extractPage at h
    cases hi : processItem item fields st with
    | error e => rw [hi] at h; cases h
    | ok st1 =>
      rw [hi] at h
      rw [ih st1 st' h p hp, processItem_untouched fields st st1 hi p hp]

/-! ### Dispatch-loop bookkeeping -/

/-- The pure effect of the dispatch loop on the per-field dispatch log:
each field of the list appends its page-local set. -/
def dispApply (ext : String → ExtState) :
    List String → (String → List Json) → (String → List Json)
  | [], d => d
  | p :: ps, d => dispApply ext ps (updMap d p (d p ++ (ext p).pageNew))

theorem updMap_id {α : Type} (d : String → α) (p : String) :
    updMap d p (d p) = d := by
  funext q
  unfold updMap
  split
  · rename_i h; rw [h]
  · rfl

theorem dispatchLoop_basic (apiUrl : String) (tm : String → Int)
    (ps : List String) : ∀ rs rs',
    dispatchLoop apiUrl tm rs ps = .ok rs' →
    rs'.ext = rs.ext ∧ rs'.dispatched = dispApply rs.ext ps rs.dispatched := by
  induction ps with
  | nil => intro rs rs' h; cases h; exact ⟨rfl, rfl⟩
  | cons p ps ih =>
    intro rs rs' h
    unfold dispatchLoop at h
    by_cases he : ((rs.ext p).pageNew).isEmpty
    · rw [if_pos he] at h
      have := ih rs rs' h
      have hnil : (rs.ext p).pageNew = [] := List.isEmpty_iff.mp he
      refine ⟨this.1, ?_⟩
      rw [this.2]
      simp only [dispApply]
      rw [hnil, List.append_nil, updMap_id]
    · rw [if_neg he] at h
      cases ha : add_items_to_itemset apiUrl rs.world
          ((rs.ext p).pageNew) (tm p) with
      | error e => rw [ha] at h; cases h
      | ok out =>
        rw [ha] at h
        obtain ⟨bs, w1, tr⟩ := out
        have := ih _ rs' h
        exact ⟨this.1, this.2⟩

theorem dispApply_eq (ext : String → ExtState) (ps : List String)
    (hNd : ps.Nodup) : ∀ d p, dispApply ext ps d p =
      if p ∈ ps then d p ++ (ext p).pageNew else d p := by
  induction ps with
  | nil => intro d p; simp [dispApply]
  | cons q ps ih =>
    intro d p
    have hq : q ∉ ps := (List.nodup_cons.mp hNd).1
    have hNd' : ps.Nodup := (List.nodup_cons.mp hNd).2
    unfold dispApply
    rw [ih hNd']
    by_cases hp : p ∈ ps
    · have hpq : p ≠ q := fun he => hq (he ▸ hp)
      simp [hp, hpq, updMap, List.mem_cons]
    · by_cases hpq : p = q
      · subst hpq
        simp [hp, updMap]
      · simp [hp, hpq, updMap, List.mem_cons]

/-! ### The run invariant behind the dedup guarantee -/

/-- Every identifier handed to the membership writer for a field is in
that field's seen-set, the seen-set never holds a duplicate, and the
found counter counts it. -/
def RunInv (rs : RunState) : Prop :=
  ∀ p, rs.dispatched p = (rs.ext p).processed ∧
    (rs.ext p).processed.Nodup ∧
    (rs.ext p).found = (rs.ext p).processed.length

theorem runInv_init (world : World) : RunInv (initRun world) := by
  intro p
  exact ⟨rfl, List.nodup_nil, rfl⟩

theorem processPage_runInv {apiUrl : String} {fields : List String}
    {tm : String → Int} {rs rs' : RunState} {pg : Nat × List Json}
    (hNd : fields.Nodup) (h : processPage apiUrl fields tm rs pg = .ok rs')
    (hI : RunInv rs) : RunInv rs' := by
  unfold processPage at h
  cases hx : extractPage fields pg.2 (resetPage rs.ext) with
  | error e => rw [hx] at h; cases h
  | ok ext1 =>
    rw [hx] at h
    have hb := dispatchLoop_basic apiUrl tm fields _ rs' h
    intro p
    have hext : rs'.ext p = ext1 p := by rw [hb.1]
    have hdisp : rs'.dispatched p = dispApply ext1 fields rs.dispatched p := by
      rw [hb.2]
    obtain ⟨hd0, hn0, hf0⟩ := hI p
    by_cases hp : p ∈ fields
    · obtain ⟨d, hpr, hpn, hfd, hnd⟩ :=
        extractPage_stepShape fields pg.2 _ ext1 hx p
      simp only [resetPage] at hpr hpn hfd hnd
      rw [dispApply_eq ext1 fields hNd, if_pos hp] at hdisp
      refine ⟨?_, ?_, ?_⟩
      · rw [hdisp, hext, hpr, hpn, hd0]
        simp
      · rw [hext, hpr]
        exact (hpr ▸ hnd) hn0
      · rw [hext, hfd, hpr, hf0]
        simp
    · have hun := extractPage_untouched fields pg.2 _ ext1 hx p hp
      rw [dispApply_eq ext1 fields hNd, if_neg hp] at hdisp
      simp only [resetPage] at hun
      refine ⟨?_, ?_, ?_⟩
      · rw [hdisp, hext, hun, hd0]
      · rw [hext, hun]; exact hn0
      · rw [hext, hun]; exact hf0

theorem streamFold_runInv {apiUrl : String} {fields : List String}
    {tm : String → Int} (hNd : fields.Nodup) (pages : List (Nat × List Json)) :
    ∀ rs rs', streamFold apiUrl fields tm rs pages = .ok rs' →
      RunInv rs → RunInv rs' := by
  induction pages with
  | nil => intro rs rs' h hI; cases h; exact hI
  | cons pg pgs ih =>
    intro rs rs' h hI
    unfold streamFold at h
    cases hp : processPage apiUrl fields tm rs pg with
    | error e => rw [hp] at h; cases h
    | ok rs1 =>
      rw [hp] at h
      exact ih rs1 rs' h (processPage_runInv hNd hp hI)

/-- The dispatch log of a completed coordinator run has no duplicate for
the given field. -/
def DispatchesDistinct (r : Except Unit RunState) (p : String) : Prop :=
  ∀ rs, r = .ok rs → (rs.dispatched p).Nodup

/-- C1: in every completed run of the streaming coordinator, an
identifier entering a field's seen-set is never handed to the membership
writer again for that field — the per-field dispatch log is
duplicate-free no matter how many resources across how many pages
reference the identifier. -/
theorem dispatch_at_most_once_per_field (apiUrl : String)
    (fields : List String) (targetMap : String → Int) (world : World)
    (pages : List (Nat × List Json)) (hNd : fields.Nodup) (p : String) :
    DispatchesDistinct (streamRun apiUrl fields targetMap world pages) p := by
  intro rs h
  have hI := streamFold_runInv hNd pages _ rs h (runInv_init world)
  obtain ⟨hd, hn, _⟩ := hI p
  rw [hd]
  exact hn

theorem dispatch_at_most_once_per_field_witness :
    DispatchesDistinct
      (streamRun "https://example.com/api" ["rcl:artist"] (fun _ => 5)
        (fun _ => some (Json.obj [("o:item_set", Json.arr [])]))
        [(1, [Json.obj [("rcl:artist",
            Json.arr [Json.obj [("type", Json.str "resource:item"),
                                ("value_resource_id", Json.num 77)]])]]),
         (2, [Json.obj [("rcl:artist",
            Json.arr [Json.obj [("type", Json.str "resource:item"),
                                ("value_resource_id", Json.num 77)]])]])])
      "rcl:artist" :=
  dispatch_at_most_once_per_field _ _ _ _ _ (by decide) _

/-! ### Permissive parsing (C7) -/

def Json.isObj : Json → Bool
  | .obj _ => true
  | _ => false

def Json.isArr : Json → Bool
  | .arr _ => true
  | _ => false

def truthyOpt : Option Json → Bool
  | none => false
  | some j => j.truthy

/-- The acceptance guard of the extraction's entry loop: a record of
`type == resource:item` with a truthy `value_resource_id`. -/
def validEntry (c : Json) : Bool :=
  c.isObj &&
    (decide (c.get? "type" = some (.str "resource:item")) &&
     truthyOpt (c.get? "value_resource_id"))

/-- C7 counterexample: a page whose item is a bare number makes the
field-membership test `property_name in item` raise a `TypeError`, so
extraction does fail for some well-formed input JSON shapes. -/
theorem extraction_fails_on_nonrecord_item :
    extractPage ["rcl:artist"] [Json.num 5] (fun _ => initExt) =
      .error () := rfl

/-- An entry the innermost loop survives: either it fails the
resource-reference guard and is skipped, or its accepted target
identifier is hashable. -/
def entrySafe (c : Json) : Bool :=
  match c with
  | .obj _ =>
    match c.get? "value_resource_id" with
    | some vid =>
      if c.get? "type" = some (.str "resource:item") ∧ vid.truthy then
        vid.hashable
      else true
    | none => true
  | _ => true

/-- A page item the extraction loop survives for the given fields: a
record each of whose present list-valued relationship fields contains
only safe entries. -/
def itemSafe (fields : List String) (item : Json) : Bool :=
  Json.isObj item &&
    fields.all (fun p =>
      match item.get? p with
      | some (.arr cs) => cs.all entrySafe
      | _ => true)

theorem processEntry_ok_of_safe {st : ExtState} {c : Json}
    (h : entrySafe c = true) : ∃ s', processEntry st c = .ok s' := by
  cases c with
  | obj fs =>
    cases hv : lookupStr fs "value_resource_id" with
    | none => exact ⟨st, by simp only [processEntry, Json.get?, hv]⟩
    | some vid =>
      simp only [entrySafe, Json.get?, hv] at h
      simp only [processEntry, Json.get?, hv]
      by_cases hg : lookupStr fs "type" =
          some (Json.str "resource:item") ∧ vid.truthy = true
      · rw [if_pos hg] at h
        rw [if_pos hg, if_pos h]
        by_cases hm : vid ∈ st.processed
        · rw [if_pos hm]
          exact ⟨st, rfl⟩
        · rw [if_neg hm]
          exact ⟨_, rfl⟩
      · rw [if_neg hg]
        exact ⟨st, rfl⟩
  | null => exact ⟨st, rfl⟩
  | bool b => exact ⟨st, rfl⟩
  | num n => exact ⟨st, rfl⟩
  | str s2 => exact ⟨st, rfl⟩
  | arr xs => exact ⟨st, rfl⟩

theorem processEntries_ok_of_safe :
    ∀ (cs : List Json) (st : ExtState),
    (∀ c ∈ cs, entrySafe c = true) →
    ∃ s', processEntries st cs = .ok s' := by
  intro cs
  induction cs with
  | nil => intro st _; exact ⟨st, rfl⟩
  | cons c cs ih =>
    intro st hs
    obtain ⟨st1, h1⟩ :=
      @processEntry_ok_of_safe st c (hs c (List.mem_cons_self c cs))
    obtain ⟨s', h2⟩ := ih st1 (fun x hx => hs x (List.mem_cons_of_mem c hx))
    refine ⟨s', ?_⟩
    unfold processEntries
    rw [h1]
    exact h2

theorem processItemField_ok_of_safe (fs : List (String × Json))
    (p : String) (st : ExtState)
    (hs : ∀ cs, lookupStr fs p = some (.arr cs) →
      ∀ c ∈ cs, entrySafe c = true) :
    ∃ s', processItemField (.obj fs) p st = .ok s' := by
  cases hv : lookupStr fs p with
  | none => exact ⟨st, by simp only [processItemField, pyGetField, hv]⟩
  | some v =>
    cases v with
    | arr cs =>
      obtain ⟨s', h⟩ := processEntries_ok_of_safe cs st (hs cs hv)
      refine ⟨s', ?_⟩
      simp only [processItemField, pyGetField, hv]
      exact h
    | null => exact ⟨st, by simp only [processItemField, pyGetField, hv]⟩
    | bool b => exact ⟨st, by simp only [processItemField, pyGetField, hv]⟩
    | num n => exact ⟨st, by simp only [processItemField, pyGetField, hv]⟩
    | str s2 =>
      exact ⟨st, by simp only [processItemField, pyGetField, hv]⟩
    | obj gs =>
      exact ⟨st, by simp only [processItemField, pyGetField, hv]⟩

theorem processItem_ok_of_safe {fs : List (String × Json)} :
    ∀ (ps : List String) (st : String → ExtState),
    (∀ p ∈ ps, ∀ cs, lookupStr fs p = some (.arr cs) →
      ∀ c ∈ cs, entrySafe c = true) →
    ∃ st', processItem (.obj fs) ps st = .ok st' := by
  intro ps
  induction ps with
  | nil => intro st _; exact ⟨st, rfl⟩
  | cons q ps ih =>
    intro st hs
    obtain ⟨s', hf⟩ := processItemField_ok_of_safe fs q (st q)
      (fun cs hcs => hs q (List.mem_cons_self q ps) cs hcs)
    obtain ⟨st', hrest⟩ := ih (updFn st q s')
      (fun p hp cs hcs => hs p (List.mem_cons_of_mem q hp) cs hcs)
    refine ⟨st', ?_⟩
    unfold processItem
    rw [hf]
    exact hrest

/-- C7 (amended): a relationship-field entry failing the
resource-reference guard (wrong kind, missing or falsy target
identifier, or not a record at all) is skipped leaving the state
unchanged; a present non-list field value contributes no references;
extraction completes on any page of record items whose accepted entries
carry hashable identifiers; but an accepted entry whose truthy target
identifier is itself a list raises a `TypeError` at the seen-set
membership test, as does a page item that is not a record (see the
counterexample) — so extraction does not survive arbitrary input JSON
shapes. -/
theorem extraction_permissive :
    (∀ fields items st, (∀ i ∈ items, itemSafe fields i = true) →
        ∃ st', extractPage fields items st = .ok st') ∧
    (∀ st c, validEntry c = false → processEntry st c = .ok st) ∧
    (∀ st item p v, pyGetField item p = .ok (some v) →
        Json.isArr v = false → processItemField item p st = .ok st) ∧
    (∀ st, processEntry st (Json.obj
        [("type", Json.str "resource:item"),
         ("value_resource_id", Json.arr [Json.num 1])]) = .error ()) := by
  refine ⟨?_, ?_, ?_, ?_⟩
  · intro fields items
    induction items with
    | nil => intro st _; exact ⟨st, rfl⟩
    | cons item items ih =>
      intro st hsafe
      have hitem := hsafe item (List.mem_cons_self item items)
      obtain ⟨fs, rfl⟩ : ∃ fs, item = .obj fs := by
        cases item <;> simp [itemSafe, Json.isObj] at hitem ⊢
      simp only [itemSafe, Json.isObj, Bool.true_and] at hitem
      obtain ⟨st1, h1⟩ := @processItem_ok_of_safe fs fields st
        (by
          intro p hp cs hcs c hc
          have hall := List.all_eq_true.mp hitem p hp
          simp only [Json.get?, hcs] at hall
          exact List.all_eq_true.mp hall c hc)
      obtain ⟨st', h2⟩ := ih st1
        (fun i hi => hsafe i (List.mem_cons_of_mem _ hi))
      refine ⟨st', ?_⟩
      unfold extractPage
      rw [h1]
      exact h2
  · intro st c h
    cases c with
    | obj fs =>
      cases hv : lookupStr fs "value_resource_id" with
      | none => simp only [processEntry, Json.get?, hv]
      | some vid =>
        simp only [validEntry, Json.isObj, Json.get?, truthyOpt, hv,
          Bool.true_and, Bool.and_eq_false_iff,
          decide_eq_false_iff_not] at h
        simp only [processEntry, Json.get?, hv]
        rw [if_neg]
        rintro ⟨h1, h2⟩
        rcases h with h | h
        · exact h h1
        · rw [h] at h2; cases h2
    | null => rfl
    | bool b => rfl
    | num n => rfl
    | str s => rfl
    | arr xs => rfl
  · intro st item p v h hna
    unfold processItemField
    rw [h]
    cases v with
    | arr cs => simp [Json.isArr] at hna
    | null => rfl
    | bool b => rfl
    | num n => rfl
    | str s => rfl
    | obj fs => rfl
  · intro st
    rfl

theorem extraction_permissive_witness :
    (∃ st', extractPage ["rcl:artist"] [Json.obj []] (fun _ => initExt) =
        .ok st') ∧
    processEntry initExt (Json.obj [("type", Json.str "oops")]) =
      .ok initExt ∧
    processItemField (Json.obj [("f", Json.str "x")]) "f" initExt =
      .ok initExt ∧
    processEntry initExt (Json.obj
      [("type", Json.str "resource:item"),
       ("value_resource_id", Json.arr [Json.num 1])]) = .error () :=
  ⟨extraction_permissive.1 _ _ _ (by decide),
   extraction_permissive.2.1 _ _ (by decide),
   extraction_permissive.2.2.1 _ _ _ _ rfl rfl,
   extraction_permissive.2.2.2 _⟩

/-! ### Membership-writer lemmas -/

theorem lookupStr_filter (remove : List String) (k : String) :
    ∀ fs : List (String × Json),
    lookupStr (fs.filter (fun kv => decide (kv.1 ∉ remove))) k =
      if k ∈ remove then none else lookupStr fs k := by
  intro fs
  induction fs with
  | nil => simp [lookupStr]
  | cons kv fs ih =>
    obtain ⟨k1, v1⟩ := kv
    by_cases h1 : k1 ∈ remove <;> by_cases hk : k ∈ remove <;>
        by_cases he : k1 = k <;>
      simp_all [List.filter_cons, lookupStr]

theorem lookupStr_map_replace (k : String) (v : Json) :
    ∀ fs : List (String × Json),
    lookupStr (fs.map (fun kv => if kv.1 = k then (k, v) else kv)) k =
      if fs.any (fun kv => kv.1 = k) then some v else none := by
  intro fs
  induction fs with
  | nil => simp [lookupStr]
  | cons kv fs ih =>
    obtain ⟨k1, v1⟩ := kv
    by_cases he : k1 = k
    · subst he
      rw [List.map_cons, if_pos rfl]
      simp [lookupStr, List.any_cons]
    · rw [List.map_cons, if_neg he]
      simp only [lookupStr, if_neg he, ih, List.any_cons]
      simp only [decide_eq_false he, Bool.false_or]

theorem lookupStr_append_of_not_mem (k : String) :
    ∀ (fs : List (String × Json)), (∀ kv ∈ fs, kv.1 ≠ k) →
    ∀ l, lookupStr (fs ++ l) k = lookupStr l k := by
  intro fs
  induction fs with
  | nil => intro _ l; rfl
  | cons kv fs ih =>
    intro h l
    obtain ⟨k1, v1⟩ := kv
    have h1 : k1 ≠ k := h (k1, v1) (List.mem_cons_self _ _)
    simp only [List.cons_append, lookupStr, if_neg h1]
    exact ih (fun kv hkv => h kv (List.mem_cons_of_mem _ hkv)) l

theorem lookupStr_setKey (fs : List (String × Json)) (k : String)
    (v : Json) : lookupStr (setKey fs k v) k = some v := by
  unfold setKey
  split
  · rename_i h
    rw [lookupStr_map_replace]
    simp only [h, if_true]
  · rename_i h
    have hall : ∀ kv ∈ fs, kv.1 ≠ k := by
      intro kv hkv he
      exact h (List.any_eq_true.mpr ⟨kv, hkv, by simp [he]⟩)
    rw [lookupStr_append_of_not_mem k fs hall [(k, v)]]
    simp [lookupStr]

/-- The write payload always carries the appended membership list. -/
theorem membershipPutPayload_itemset (apiUrl : String) (c : Int)
    (fs : List (String × Json)) (xs : List Json) :
    lookupStr (membershipPutPayload apiUrl c fs xs) "o:item_set" =
      some (Json.arr (xs ++ [newItemSetEntry apiUrl c])) := by
  unfold membershipPutPayload
  rw [lookupStr_filter]
  rw [if_neg (by decide)]
  exact lookupStr_setKey fs "o:item_set" _

theorem entryIds_of_wf : ∀ xs : List Json,
    (∀ s ∈ xs, entryHasId s = true) →
    entryIds xs = .ok (xs.map entryOid) := by
  intro xs
  induction xs with
  | nil => intro _; rfl
  | cons s rest ih =>
    intro h
    have hs := h s (List.mem_cons_self s rest)
    cases s with
    | obj gs =>
      simp only [entryHasId] at hs
      cases hg : lookupStr gs "o:id" with
      | none => rw [hg] at hs; cases hs
      | some j =>
        simp only [entryIds]
        rw [hg, ih (fun x hx => h x (List.mem_cons_of_mem _ hx))]
        simp [entryOid, hg]
    | null => simp [entryHasId] at hs
    | bool b => simp [entryHasId] at hs
    | num n => simp [entryHasId] at hs
    | str s2 => simp [entryHasId] at hs
    | arr ys => simp [entryHasId] at hs

theorem addOneItem_member {apiUrl : String} {c : Int} {ws : WriterState}
    {itemId : Json} (h : memberVal (ws.world itemId) c = true) :
    addOneItem apiUrl c ws itemId = .ok
      { ws with already := ws.already + 1, success := ws.success + 1,
                trace := ws.trace ++ [.getItem itemId] } := by
  cases hw : ws.world itemId with
  | none => rw [hw] at h; cases h
  | some itemData =>
    rw [hw] at h
    cases itemData with
    | obj fs =>
      simp only [memberVal] at h
      cases hj : jGetD fs "o:item_set" (.arr []) with
      | arr xs =>
        rw [hj] at h
        simp only [Bool.and_eq_true, decide_eq_true_eq] at h
        obtain ⟨hall, hmem⟩ := h
        have hall' : ∀ s ∈ xs, entryHasId s = true := by
          intro s hs
          exact List.all_eq_true.mp hall s hs
        simp only [addOneItem, hw, hj, entryIds_of_wf xs hall']
        rw [if_pos hmem]
      | null => rw [hj] at h; cases h
      | bool b => rw [hj] at h; cases h
      | num n => rw [hj] at h; cases h
      | str s2 => rw [hj] at h; cases h
      | obj gs => rw [hj] at h; cases h
    | null => cases h
    | bool b => cases h
    | num n => cases h
    | str s2 => cases h
    | arr ys => cases h

theorem addOneItem_write {apiUrl : String} {c : Int} {ws : WriterState}
    {itemId : Json} {fs : List (String × Json)} {xs : List Json}
    (hw : ws.world itemId = some (.obj fs))
    (hxs : jGetD fs "o:item_set" (.arr []) = .arr xs)
    (hent : ∀ s ∈ xs, entryHasId s = true)
    (hnm : Json.num c ∉ xs.map entryOid) :
    addOneItem apiUrl c ws itemId = .ok
      { world := updWorld ws.world itemId
          (Json.obj (membershipPutPayload apiUrl c fs xs))
        success := ws.success + 1
        already := ws.already
        errors := ws.errors
        trace := ws.trace ++ [.getItem itemId] ++
          [.putItem itemId
            (Json.obj (membershipPutPayload apiUrl c fs xs))] } := by
  simp only [addOneItem, hw, hxs, entryIds_of_wf xs hent]
  rw [if_neg hnm]

/-- C5: a resource whose current membership list already contains the
destination collection is classified already-present with no write: the
single fetch is the only remote call made for it. -/
theorem ensureMember_already_present (apiUrl : String) (world : World)
    (itemId : Json) (c : Int) (h : memberVal (world itemId) c = true) :
    add_items_to_itemset apiUrl world [itemId] c =
      .ok (⟨0, 1, 0⟩, world, [.getItem itemId]) := by
  unfold add_items_to_itemset addItemsLoop
  rw [@addOneItem_member apiUrl c ⟨world, 0, 0, 0, []⟩ itemId h]
  rfl

theorem ensureMember_already_present_witness :
    add_items_to_itemset "https://example.com/api"
      (fun j => if j = Json.num 77 then
          some (Json.obj [("o:item_set",
            Json.arr [Json.obj [("o:id", Json.num 5)]])])
        else none)
      [Json.num 77] 5 =
      .ok (⟨0, 1, 0⟩,
        (fun j => if j = Json.num 77 then
            some (Json.obj [("o:item_set",
              Json.arr [Json.obj [("o:id", Json.num 5)]])])
          else none),
        [.getItem (Json.num 77)]) :=
  ensureMember_already_present _ _ _ _ (by decide)

/-- C6: every write issued by the membership writer PUTs a payload whose
membership list is exactly the pre-existing list, unchanged and in its
original order, with exactly one new collection reference appended at
the end; exactly one write is issued. -/
theorem membership_write_appends (apiUrl : String) (world : World)
    (itemId : Json) (c : Int) (fs : List (String × Json)) (xs : List Json)
    (hw : world itemId = some (.obj fs))
    (hxs : jGetD fs "o:item_set" (.arr []) = .arr xs)
    (hent : ∀ s ∈ xs, entryHasId s = true)
    (hnm : Json.num c ∉ xs.map entryOid) :
    add_items_to_itemset apiUrl world [itemId] c = .ok
      (⟨1, 0, 0⟩,
       updWorld world itemId
         (Json.obj (membershipPutPayload apiUrl c fs xs)),
       [.getItem itemId,
        .putItem itemId (Json.obj (membershipPutPayload apiUrl c fs xs))]) ∧
    lookupStr (membershipPutPayload apiUrl c fs xs) "o:item_set" =
      some (Json.arr (xs ++ [newItemSetEntry apiUrl c])) := by
  constructor
  · unfold add_items_to_itemset addItemsLoop
    rw [@addOneItem_write apiUrl c ⟨world, 0, 0, 0, []⟩ itemId fs xs hw hxs
      hent hnm]
    rfl
  · exact membershipPutPayload_itemset apiUrl c fs xs

theorem membership_write_appends_witness :
    add_items_to_itemset "https://example.com/api"
      (fun j => if j = Json.num 77 then
          some (Json.obj [("o:item_set",
            Json.arr [Json.obj [("o:id", Json.num 9)]])])
        else none)
      [Json.num 77] 5 = .ok
      (⟨1, 0, 0⟩,
       updWorld
         (fun j => if j = Json.num 77 then
            some (Json.obj [("o:item_set",
              Json.arr [Json.obj [("o:id", Json.num 9)]])])
          else none)
         (Json.num 77)
         (Json.obj (membershipPutPayload "https://example.com/api" 5
           [("o:item_set", Json.arr [Json.obj [("o:id", Json.num 9)]])]
           [Json.obj [("o:id", Json.num 9)]])),
       [.getItem (Json.num 77),
        .putItem (Json.num 77)
          (Json.obj (membershipPutPayload "https://example.com/api" 5
            [("o:item_set", Json.arr [Json.obj [("o:id", Json.num 9)]])]
            [Json.obj [("o:id", Json.num 9)]]))]) ∧
    lookupStr (membershipPutPayload "https://example.com/api" 5
        [("o:item_set", Json.arr [Json.obj [("o:id", Json.num 9)]])]
        [Json.obj [("o:id", Json.num 9)]]) "o:item_set" =
      some (Json.arr ([Json.obj [("o:id", Json.num 9)]] ++
        [newItemSetEntry "https://example.com/api" 5])) :=
  membership_write_appends _ _ _ _ _ _ rfl rfl
    (by intro s hs; simp at hs; subst hs; decide)
    (by decide)

/-! ### The strip set (C2) -/

/-- The strip set asserted by the specification: identifier, timestamps,
owner, resource-class and resource-template references, thumbnails,
primary media, media list, site, reverse block and the JSON-LD
context/id/type markers. -/
def specStripSet : List String :=
  ["o:id", "o:created", "o:modified", "o:owner", "o:resource_class",
   "o:resource_template", "thumbnail_display_urls", "o:primary_media",
   "o:media", "o:site", "@reverse", "@context", "@id", "@type"]

def writerTrace (r : Except Unit (AddStats × World × List RemoteOp)) :
    List RemoteOp :=
  match r with
  | .ok out => out.2.2
  | .error _ => []

def putPayloads : List RemoteOp → List Json
  | [] => []
  | .putItem _ payload :: rest => payload :: putPayloads rest
  | _ :: rest => putPayloads rest

/-- C2 counterexample: a resource carrying a resource-class reference is
PUT back by the membership writer with that field still present, although
the field belongs to the specification's strip set; and the other write
path (`update_item` in `SaveItemUnchanged.py`) applies a different strip
set that keeps the JSON-LD context.  The claimed single exhaustive strip
set is not applied on every write path. -/
theorem strip_set_not_uniform :
    "o:resource_class" ∈ specStripSet ∧
    putPayloads (writerTrace (add_items_to_itemset
        "https://example.com/api"
        (fun j => if j = Json.num 7 then
            some (Json.obj [("o:item_set", Json.arr []),
              ("o:resource_class", Json.obj [("o:id", Json.num 3)])])
          else none)
        [Json.num 7] 5)) =
      [Json.obj [("o:item_set",
          Json.arr [newItemSetEntry "https://example.com/api" 5]),
        ("o:resource_class", Json.obj [("o:id", Json.num 3)])]] ∧
    "@context" ∈ specStripSet ∧
    update_item_payload [("@context", Json.str "ctx")] =
      [("@context", Json.str "ctx")] := by
  refine ⟨by decide, by decide, by decide, by decide⟩

/-- C2 (amended): each write path strips exactly its own list.  The
membership writer's payload never carries a key of `fields_to_remove` —
a list that omits the resource-class and resource-template references —
and `update_item` never carries a key of its own `read_only_fields`; the
two lists differ, so no single strip set is applied identically on every
write path of the repository. -/
theorem strip_fields_per_path (apiUrl : String) (c : Int)
    (fs : List (String × Json)) (xs : List Json) (k : String) :
    (k ∈ fields_to_remove →
      lookupStr (membershipPutPayload apiUrl c fs xs) k = none) ∧
    (k ∈ read_only_fields → lookupStr (update_item_payload fs) k = none) ∧
    ¬ ("o:resource_class" ∈ fields_to_remove) ∧
    "o:resource_class" ∈ read_only_fields := by
  refine ⟨?_, ?_, by decide, by decide⟩
  · intro hk
    unfold membershipPutPayload
    rw [lookupStr_filter, if_pos hk]
  · intro hk
    unfold update_item_payload
    rw [lookupStr_filter, if_pos hk]

theorem strip_fields_per_path_witness :
    lookupStr (membershipPutPayload "https://example.com/api" 5
        [("o:owner", Json.obj [("o:id", Json.num 1)])] []) "o:owner" =
      none ∧
    lookupStr (update_item_payload [("o:owner", Json.obj [])]) "o:owner" =
      none :=
  ⟨(strip_fields_per_path "https://example.com/api" 5
      [("o:owner", Json.obj [("o:id", Json.num 1)])] [] "o:owner").1
      (by decide),
   (strip_fields_per_path "https://example.com/api" 5
      [("o:owner", Json.obj [])] [] "o:owner").2.1 (by decide)⟩

/-! ### Probe and precondition lemmas (C4, C10) -/

def isProbe : RemoteOp → Bool
  | .probeSet _ => true
  | _ => false

theorem addOneItem_trace {apiUrl : String} {c : Int} {ws : WriterState}
    {itemId : Json} {ws' : WriterState}
    (h : addOneItem apiUrl c ws itemId = .ok ws') :
    ∃ t, ws'.trace = ws.trace ++ t ∧ ∀ op ∈ t, isProbe op = false := by
  unfold addOneItem at h
  split at h
  · cases h
    refine ⟨[.getItem itemId], rfl, ?_⟩
    intro op hop
    simp only [List.mem_singleton] at hop
    subst hop; rfl
  · split at h
    · split at h
      · split at h
        · cases h
        · split at h
          · cases h
            refine ⟨[.getItem itemId], rfl, ?_⟩
            intro op hop
            simp only [List.mem_singleton] at hop
            subst hop; rfl
          · cases h
            refine ⟨[.getItem itemId] ++ [.putItem itemId _],
              by rw [List.append_assoc], ?_⟩
            intro op hop
            simp only [List.mem_append, List.mem_singleton] at hop
            rcases hop with h1 | h1 <;> subst h1 <;> rfl
      · cases h
    · cases h

theorem addItemsLoop_trace {apiUrl : String} {c : Int} :
    ∀ (ids : List Json) (ws ws' : WriterState),
    addItemsLoop apiUrl c ws ids = .ok ws' →
    ∃ t, ws'.trace = ws.trace ++ t ∧ ∀ op ∈ t, isProbe op = false := by
  intro ids
  induction ids with
  | nil =>
    intro ws ws' h
    cases h
    exact ⟨[], by simp, by simp⟩
  | cons id ids ih =>
    intro ws ws' h
    unfold addItemsLoop at h
    cases ha : addOneItem apiUrl c ws id with
    | error e => rw [ha] at h; cases h
    | ok ws1 =>
      rw [ha] at h
      obtain ⟨t1, ht1, hn1⟩ := addOneItem_trace ha
      obtain ⟨t2, ht2, hn2⟩ := ih ws1 ws' h
      refine ⟨t1 ++ t2, ?_, ?_⟩
      · rw [ht2, ht1, List.append_assoc]
      · intro op hop
        rcases List.mem_append.mp hop with h1 | h1
        · exact hn1 op h1
        · exact hn2 op h1

theorem add_items_noProbes {apiUrl : String} {world : World}
    {ids : List Json} {c : Int} {bs : AddStats} {w : World}
    {tr : List RemoteOp}
    (h : add_items_to_itemset apiUrl world ids c = .ok (bs, w, tr)) :
    ∀ op ∈ tr, isProbe op = false := by
  unfold add_items_to_itemset at h
  cases hl : addItemsLoop apiUrl c ⟨world, 0, 0, 0, []⟩ ids with
  | error e => rw [hl] at h; cases h
  | ok ws =>
    rw [hl] at h
    obtain ⟨t, ht, hn⟩ := addItemsLoop_trace ids _ _ hl
    cases h
    rw [ht]
    simpa using hn

theorem dispatchLoop_trace {apiUrl : String} {tm : String → Int} :
    ∀ (ps : List String) (rs rs' : RunState),
    dispatchLoop apiUrl tm rs ps = .ok rs' →
    ∃ t, rs'.trace = rs.trace ++ t ∧ ∀ op ∈ t, isProbe op = false := by
  intro ps
  induction ps with
  | nil =>
    intro rs rs' h
    cases h
    exact ⟨[], by simp, by simp⟩
  | cons p ps ih =>
    intro rs rs' h
    unfold dispatchLoop at h
    by_cases he : ((rs.ext p).pageNew).isEmpty
    · rw [if_pos he] at h
      exact ih rs rs' h
    · rw [if_neg he] at h
      cases ha : add_items_to_itemset apiUrl rs.world
          ((rs.ext p).pageNew) (tm p) with
      | error e => rw [ha] at h; cases h
      | ok out =>
        rw [ha] at h
        obtain ⟨bs, w1, tr⟩ := out
        obtain ⟨t2, ht2, hn2⟩ := ih _ rs' h
        refine ⟨tr ++ t2, ?_, ?_⟩
        · rw [ht2]
          simp [List.append_assoc]
        · intro op hop
          rcases List.mem_append.mp hop with h1 | h1
          · exact add_items_noProbes ha op h1
          · exact hn2 op h1

theorem processPage_trace {apiUrl : String} {fields : List String}
    {tm : String → Int} {rs rs' : RunState} {pg : Nat × List Json}
    (h : processPage apiUrl fields tm rs pg = .ok rs') :
    ∃ t, rs'.trace = rs.trace ++ t ∧ ∀ op ∈ t, isProbe op = false := by
  unfold processPage at h
  cases hx : extractPage fields pg.2 (resetPage rs.ext) with
  | error e => rw [hx] at h; cases h
  | ok ext1 =>
    rw [hx] at h
    obtain ⟨t, ht, hn⟩ := dispatchLoop_trace fields _ rs' h
    refine ⟨[.getPage pg.1] ++ t, ?_, ?_⟩
    · rw [ht]
      simp [List.append_assoc]
    · intro op hop
      rcases List.mem_append.mp hop with h1 | h1
      · simp only [List.mem_singleton] at h1
        subst h1; rfl
      · exact hn op h1

theorem streamFold_trace {apiUrl : String} {fields : List String}
    {tm : String → Int} :
    ∀ (pages : List (Nat × List Json)) (rs rs' : RunState),
    streamFold apiUrl fields tm rs pages = .ok rs' →
    ∃ t, rs'.trace = rs.trace ++ t ∧ ∀ op ∈ t, isProbe op = false := by
  intro pages
  induction pages with
  | nil =>
    intro rs rs' h
    cases h
    exact ⟨[], by simp, by simp⟩
  | cons pg pgs ih =>
    intro rs rs' h
    unfold streamFold at h
    cases hp : processPage apiUrl fields tm rs pg with
    | error e => rw [hp] at h; cases h
    | ok rs1 =>
      rw [hp] at h
      obtain ⟨t1, ht1, hn1⟩ := processPage_trace hp
      obtain ⟨t2, ht2, hn2⟩ := ih rs1 rs' h
      refine ⟨t1 ++ t2, ?_, ?_⟩
      · rw [ht2, ht1, List.append_assoc]
      · intro op hop
        rcases List.mem_append.mp hop with h1 | h1
        · exact hn1 op h1
        · exact hn2 op h1

/-- Shared: a failed existence probe aborts `process_contributor_type`
with zeroed statistics, the world untouched, and the probe as the only
remote operation. -/
theorem process_contributor_type_abort {probe : Int → ProbeResult}
    {target : Int} (hv : verify_itemset_exists probe target = false)
    (apiUrl : String) (fetch : Nat → FetchResult) (fuel : Nat)
    (world : World) (propertyName : String) :
    process_contributor_type apiUrl probe fetch fuel world propertyName
      target = .ok (zeroStats, world, [.probeSet target]) := by
  unfold process_contributor_type
  simp [hv]

/-- C4: the destination collection of the field-to-collection map is
probed exactly once, as the first remote operation, before any page is
pulled; if the probe fails the run aborts with zeroed statistics and no
side effect — no page request and no write appear in the trace and the
remote state is untouched. -/
theorem destination_precheck_gate (apiUrl : String)
    (probe : Int → ProbeResult) (fetch : Nat → FetchResult) (fuel : Nat)
    (world : World) (propertyName : String) (target : Int) :
    (verify_itemset_exists probe target = false →
      process_contributor_type apiUrl probe fetch fuel world propertyName
        target = .ok (zeroStats, world, [.probeSet target])) ∧
    (∀ st w tr, process_contributor_type apiUrl probe fetch fuel world
        propertyName target = .ok (st, w, tr) →
      ∃ t, tr = .probeSet target :: t ∧ ∀ op ∈ t, isProbe op = false) := by
  constructor
  · intro hv
    exact process_contributor_type_abort hv apiUrl fetch fuel world
      propertyName
  · intro st w tr h
    unfold process_contributor_type at h
    split at h
    · cases hs : streamRun apiUrl [propertyName] (fun _ => target) world
          (get_items_generator fetch fuel).1 with
      | error e => rw [hs] at h; cases h
      | ok rs =>
        rw [hs] at h
        obtain ⟨t, ht, hn⟩ := streamFold_trace
          (get_items_generator fetch fuel).1 _ rs hs
        cases h
        refine ⟨rs.trace, rfl, ?_⟩
        intro op hop
        rw [ht] at hop
        simp only [initRun, List.nil_append] at hop
        exact hn op hop
    · cases h
      exact ⟨[], rfl, by simp⟩

theorem destination_precheck_gate_witness :
    process_contributor_type "https://example.com/api"
      (fun _ => ProbeResult.netErr) (fun _ => FetchResult.ok []) 3
      (fun _ => none) "rcl:artist" 999 =
      .ok (zeroStats, (fun _ => none), [.probeSet 999]) :=
  (destination_precheck_gate "https://example.com/api"
    (fun _ => ProbeResult.netErr) (fun _ => FetchResult.ok []) 3
    (fun _ => none) "rcl:artist" 999).1 rfl

/-- C10: the existence probe returns False on any request failure
whatsoever — a network error or any unsuccessful HTTP status, not only
not-found — so a transient network error during the probe is
indistinguishable from an absent collection and aborts the run as a
fatal precondition failure. -/
theorem probe_failure_conflated (probe : Int → ProbeResult)
    (target : Int) :
    (probe target = .netErr →
      verify_itemset_exists probe target = false) ∧
    (∀ s, probe target = .okStatus s → 400 ≤ s →
      verify_itemset_exists probe target = false) ∧
    (probe target = .netErr →
      ∀ apiUrl fetch fuel world propertyName,
      process_contributor_type apiUrl probe fetch fuel world propertyName
        target = .ok (zeroStats, world, [.probeSet target])) := by
  refine ⟨?_, ?_, ?_⟩
  · intro h
    unfold verify_itemset_exists
    rw [h]
  · intro s h hs
    unfold verify_itemset_exists
    rw [h]
    exact decide_eq_false (by omega)
  · intro h apiUrl fetch fuel world propertyName
    refine process_contributor_type_abort ?_ apiUrl fetch fuel world
      propertyName
    unfold verify_itemset_exists
    rw [h]

theorem probe_failure_conflated_witness :
    verify_itemset_exists (fun _ => ProbeResult.netErr) 1 = false ∧
    process_contributor_type "https://example.com/api"
      (fun _ => ProbeResult.netErr) (fun _ => FetchResult.ok []) 2
      (fun _ => none) "rcl:artist" 1 =
      .ok (zeroStats, (fun _ => none), [.probeSet 1]) :=
  ⟨(probe_failure_conflated (fun _ => ProbeResult.netErr) 1).1 rfl,
   (probe_failure_conflated (fun _ => ProbeResult.netErr) 1).2.2 rfl
     "https://example.com/api" (fun _ => FetchResult.ok []) 2
     (fun _ => none) "rcl:artist"⟩

/-! ### Page cursor (C8) -/

theorem genPagesAux_spec (fetch : Nat → FetchResult) :
    ∀ (fuel start : Nat) (pages : List (Nat × List Json)) (e : EndKind),
    genPagesAux fetch fuel start = (pages, e) →
    (∀ i, i < pages.length →
        (pages.getD i (0, [])).1 = start + i ∧
        fetch (start + i) = .ok (pages.getD i (0, [])).2 ∧
        (pages.getD i (0, [])).2 ≠ []) ∧
    (e = .emptyPage → fetch (start + pages.length) = .ok []) ∧
    (e = .requestFailed → fetch (start + pages.length) = .fail) := by
  intro fuel
  induction fuel with
  | zero =>
    intro start pages e h
    simp only [genPagesAux] at h
    cases h
    refine ⟨fun i hi => absurd hi (by simp), fun he => ?_, fun he => ?_⟩
    · cases he
    · cases he
  | succ fuel ih =>
    intro start pages e h
    simp only [genPagesAux] at h
    cases hf : fetch start with
    | fail =>
      rw [hf] at h
      cases h
      refine ⟨fun i hi => absurd hi (by simp), fun he => ?_, fun he => ?_⟩
      · cases he
      · simpa using hf
    | ok items =>
      rw [hf] at h
      cases items with
      | nil =>
        cases h
        refine ⟨fun i hi => absurd hi (by simp), fun he => ?_,
          fun he => ?_⟩
        · simpa using hf
        · cases he
      | cons x xs =>
        cases h
        have ihs := ih (start + 1) (genPagesAux fetch fuel (start + 1)).1
          (genPagesAux fetch fuel (start + 1)).2 rfl
        refine ⟨?_, ?_, ?_⟩
        · intro i hi
          cases i with
          | zero =>
            refine ⟨by simp, by simpa using hf, by simp⟩
          | succ j =>
            have hj : j < (genPagesAux fetch fuel (start + 1)).1.length :=
              by simpa using hi
            obtain ⟨ha, hb, hc⟩ := ihs.1 j hj
            have harith : start + 1 + j = start + (j + 1) := by omega
            rw [harith] at ha hb
            refine ⟨?_, ?_, ?_⟩
            · simpa using ha
            · simpa using hb
            · simpa using hc
        · intro he
          have := ihs.2.1 he
          have harith : start + 1 + (genPagesAux fetch fuel (start + 1)).1.length =
              start + ((genPagesAux fetch fuel (start + 1)).1.length + 1) :=
            by omega
          rw [harith] at this
          simpa using this
        · intro he
          have := ihs.2.2 he
          have harith : start + 1 + (genPagesAux fetch fuel (start + 1)).1.length =
              start + ((genPagesAux fetch fuel (start + 1)).1.length + 1) :=
            by omega
          rw [harith] at this
          simpa using this

/-- C8: the page cursor starts at 1 and advances exactly once per
non-empty retrieved page (the k-th yielded page carries page number k and
is the non-empty body returned for that request); an empty body ends the
stream normally — distinguished from `requestFailed` — and a retrieval
failure ends it at the current page; in both cases the coordinator's
statistics and writes are exactly those of the pages already yielded. -/
theorem page_cursor_spec (fetch : Nat → FetchResult) (fuel : Nat)
    (pages : List (Nat × List Json)) (e : EndKind)
    (h : get_items_generator fetch fuel = (pages, e)) :
    (∀ i, i < pages.length →
        (pages.getD i (0, [])).1 = i + 1 ∧
        fetch (i + 1) = .ok (pages.getD i (0, [])).2 ∧
        (pages.getD i (0, [])).2 ≠ []) ∧
    (e = .emptyPage → fetch (pages.length + 1) = .ok []) ∧
    (e = .requestFailed → fetch (pages.length + 1) = .fail) ∧
    (∀ apiUrl fields targetMap world,
        pipelineRun apiUrl fields targetMap world fetch fuel =
          (streamRun apiUrl fields targetMap world pages, e)) := by
  have hs := genPagesAux_spec fetch fuel 1 pages e h
  refine ⟨?_, ?_, ?_, ?_⟩
  · intro i hi
    obtain ⟨a, b, c⟩ := hs.1 i hi
    rw [Nat.add_comm 1 i] at a b
    exact ⟨a, b, c⟩
  · intro he
    have := hs.2.1 he
    rwa [Nat.add_comm] at this
  · intro he
    have := hs.2.2 he
    rwa [Nat.add_comm] at this
  · intro apiUrl fields targetMap world
    unfold pipelineRun
    rw [h]

theorem page_cursor_spec_witness :
    (fun i => if i ≤ 2 then FetchResult.ok [Json.obj []]
      else FetchResult.fail)
      ([(1, [Json.obj []]), (2, [Json.obj []])].length + 1) =
      FetchResult.fail :=
  (page_cursor_spec
    (fun i => if i ≤ 2 then FetchResult.ok [Json.obj []]
      else FetchResult.fail) 9
    [(1, [Json.obj []]), (2, [Json.obj []])] .requestFailed
    (by decide)).2.2.1 rfl

/-! ### Idempotence of a second run (C3) -/

theorem memberVal_elim {o : Option Json} {c : Int}
    (h : memberVal o c = true) :
    ∃ fs xs, o = some (.obj fs) ∧
      jGetD fs "o:item_set" (.arr []) = .arr xs ∧
      (∀ s ∈ xs, entryHasId s = true) ∧ Json.num c ∈ xs.map entryOid := by
  cases o with
  | none => cases h
  | some j =>
    cases j with
    | obj fs =>
      simp only [memberVal] at h
      cases hj : jGetD fs "o:item_set" (.arr []) with
      | arr xs =>
        rw [hj] at h
        simp only [Bool.and_eq_true, decide_eq_true_eq] at h
        exact ⟨fs, xs, rfl, hj,
          fun s hs => List.all_eq_true.mp h.1 s hs, h.2⟩
      | null => rw [hj] at h; cases h
      | bool b => rw [hj] at h; cases h
      | num n => rw [hj] at h; cases h
      | str s2 => rw [hj] at h; cases h
      | obj gs => rw [hj] at h; cases h
    | null => cases h
    | bool b => cases h
    | num n => cases h
    | str s2 => cases h
    | arr ys => cases h

theorem memberVal_intro {o : Option Json} {fs : List (String × Json)}
    {xs : List Json} {c : Int} (ho : o = some (.obj fs))
    (hxs : jGetD fs "o:item_set" (.arr []) = .arr xs)
    (hent : ∀ s ∈ xs, entryHasId s = true)
    (hmem : Json.num c ∈ xs.map entryOid) : memberVal o c = true := by
  subst ho
  simp only [memberVal, hxs, Bool.and_eq_true, decide_eq_true_eq]
  exact ⟨List.all_eq_true.mpr hent, hmem⟩

theorem wfVal_elim {o : Option Json} (h : wfVal o = true) :
    ∃ fs xs, o = some (.obj fs) ∧
      jGetD fs "o:item_set" (.arr []) = .arr xs ∧
      ∀ s ∈ xs, entryHasId s = true := by
  cases o with
  | none => cases h
  | some j =>
    cases j with
    | obj fs =>
      simp only [wfVal] at h
      cases hj : jGetD fs "o:item_set" (.arr []) with
      | arr xs =>
        rw [hj] at h
        exact ⟨fs, xs, rfl, hj, fun s hs => List.all_eq_true.mp h s hs⟩
      | null => rw [hj] at h; cases h
      | bool b => rw [hj] at h; cases h
      | num n => rw [hj] at h; cases h
      | str s2 => rw [hj] at h; cases h
      | obj gs => rw [hj] at h; cases h
    | null => cases h
    | bool b => cases h
    | num n => cases h
    | str s2 => cases h
    | arr ys => cases h

theorem wfVal_intro {o : Option Json} {fs : List (String × Json)}
    {xs : List Json} (ho : o = some (.obj fs))
    (hxs : jGetD fs "o:item_set" (.arr []) = .arr xs)
    (hent : ∀ s ∈ xs, entryHasId s = true) : wfVal o = true := by
  subst ho
  simp only [wfVal, hxs]
  exact List.all_eq_true.mpr hent

theorem payload_facts (apiUrl : String) (c : Int)
    (fs : List (String × Json)) (xs : List Json)
    (hent : ∀ s ∈ xs, entryHasId s = true) :
    jGetD (membershipPutPayload apiUrl c fs xs) "o:item_set" (.arr []) =
      .arr (xs ++ [newItemSetEntry apiUrl c]) ∧
    (∀ s ∈ xs ++ [newItemSetEntry apiUrl c], entryHasId s = true) ∧
    (∀ c' : Int, Json.num c' ∈ xs.map entryOid →
      Json.num c' ∈ (xs ++ [newItemSetEntry apiUrl c]).map entryOid) ∧
    Json.num c ∈ (xs ++ [newItemSetEntry apiUrl c]).map entryOid := by
  refine ⟨?_, ?_, ?_, ?_⟩
  · unfold jGetD
    rw [membershipPutPayload_itemset]
    rfl
  · intro s hs
    rcases List.mem_append.mp hs with h1 | h1
    · exact hent s h1
    · simp only [List.mem_singleton] at h1
      subst h1
      rfl
  · intro c' hc'
    rw [List.map_append]
    exact List.mem_append_left _ hc'
  · rw [List.map_append]
    refine List.mem_append_right _ ?_
    simp only [List.map_cons, List.map_nil, List.mem_singleton]
    rfl

theorem addOneItem_wf_step {apiUrl : String} {c : Int} {ws : WriterState}
    {itemId : Json} (hwf : wfVal (ws.world itemId) = true) :
    ∃ ws', addOneItem apiUrl c ws itemId = .ok ws' ∧
      memberVal (ws'.world itemId) c = true ∧
      (∀ id c', memberVal (ws.world id) c' = true →
        memberVal (ws'.world id) c' = true) ∧
      (∀ id, wfVal (ws.world id) = true → wfVal (ws'.world id) = true) ∧
      (∀ id, id ≠ itemId → ws'.world id = ws.world id) := by
  obtain ⟨fs, xs, ho, hxs, hent⟩ := wfVal_elim hwf
  by_cases hm : Json.num c ∈ xs.map entryOid
  · have hmem : memberVal (ws.world itemId) c = true :=
      memberVal_intro ho hxs hent hm
    refine ⟨_, addOneItem_member hmem, hmem, ?_, ?_, ?_⟩
    · intro id c' h; exact h
    · intro id h; exact h
    · intro id _; rfl
  · obtain ⟨hpj, hpe, hpmono, hpc⟩ := payload_facts apiUrl c fs xs hent
    have hself : updWorld ws.world itemId
        (Json.obj (membershipPutPayload apiUrl c fs xs)) itemId =
        some (Json.obj (membershipPutPayload apiUrl c fs xs)) := by
      simp [updWorld]
    have hother : ∀ id, id ≠ itemId → updWorld ws.world itemId
        (Json.obj (membershipPutPayload apiUrl c fs xs)) id =
        ws.world id := by
      intro id hid
      simp [updWorld, hid]
    refine ⟨_, addOneItem_write ho hxs hent hm, ?_, ?_, ?_, ?_⟩
    · show memberVal (updWorld ws.world itemId
        (Json.obj (membershipPutPayload apiUrl c fs xs)) itemId) c = true
      exact memberVal_intro hself hpj hpe hpc
    · intro id c' h
      show memberVal (updWorld ws.world itemId
        (Json.obj (membershipPutPayload apiUrl c fs xs)) id) c' = true
      by_cases hid : id = itemId
      · subst hid
        obtain ⟨fs0, xs0, ho0, hxs0, hentz, hmem0⟩ := memberVal_elim h
        rw [ho] at ho0
        have hfs : fs0 = fs := by
          injection ho0 with h1
          injection h1 with h2
          exact h2.symm
        subst hfs
        have hxx : xs0 = xs := by
          rw [hxs] at hxs0
          injection hxs0 with h1
          exact h1.symm
        subst hxx
        exact memberVal_intro hself hpj hpe (hpmono c' hmem0)
      · rw [hother id hid]
        exact h
    · intro id h
      show wfVal (updWorld ws.world itemId
        (Json.obj (membershipPutPayload apiUrl c fs xs)) id) = true
      by_cases hid : id = itemId
      · subst hid
        exact wfVal_intro hself hpj hpe
      · rw [hother id hid]
        exact h
    · intro id hid
      show updWorld ws.world itemId
        (Json.obj (membershipPutPayload apiUrl c fs xs)) id = ws.world id
      exact hother id hid

theorem addItemsLoop_wf {apiUrl : String} {c : Int} :
    ∀ (ids : List Json) (ws : WriterState),
    (∀ id ∈ ids, wfVal (ws.world id) = true) →
    ∃ ws', addItemsLoop apiUrl c ws ids = .ok ws' ∧
      (∀ id ∈ ids, memberVal (ws'.world id) c = true) ∧
      (∀ id c', memberVal (ws.world id) c' = true →
        memberVal (ws'.world id) c' = true) ∧
      (∀ id, wfVal (ws.world id) = true → wfVal (ws'.world id) = true) := by
  intro ids
  induction ids with
  | nil =>
    intro ws _
    exact ⟨ws, rfl, by simp, fun id c' h => h, fun id h => h⟩
  | cons id0 ids ih =>
    intro ws hwf
    obtain ⟨ws1, h1, hmem1, hpres1, hwf1, hunt1⟩ :=
      @addOneItem_wf_step apiUrl c ws id0
        (hwf id0 (List.mem_cons_self id0 ids))
    obtain ⟨ws', h2, hmem2, hpres2, hwf2⟩ := ih ws1
      (fun id hid => hwf1 id (hwf id (List.mem_cons_of_mem _ hid)))
    refine ⟨ws', ?_, ?_, ?_, ?_⟩
    · unfold addItemsLoop
      rw [h1]
      exact h2
    · intro id hid
      rcases List.mem_cons.mp hid with h | h
      · subst h
        exact hpres2 id c hmem1
      · exact hmem2 id h
    · intro id c' h
      exact hpres2 id c' (hpres1 id c' h)
    · intro id h
      exact hwf2 id (hwf1 id h)

theorem add_items_wf {apiUrl : String} {world : World} {ids : List Json}
    {c : Int} (hwf : ∀ id ∈ ids, wfVal (world id) = true) :
    ∃ bs w' tr, add_items_to_itemset apiUrl world ids c =
        .ok (bs, w', tr) ∧
      (∀ id ∈ ids, memberVal (w' id) c = true) ∧
      (∀ id c', memberVal (world id) c' = true →
        memberVal (w' id) c' = true) ∧
      (∀ id, wfVal (world id) = true → wfVal (w' id) = true) := by
  obtain ⟨ws', h, hmem, hpres, hw⟩ :=
    @addItemsLoop_wf apiUrl c ids ⟨world, 0, 0, 0, []⟩ hwf
  refine ⟨⟨ws'.success - ws'.already, ws'.already, ws'.errors⟩, ws'.world,
    ws'.trace, ?_, hmem, hpres, hw⟩
  unfold add_items_to_itemset
  rw [h]

/-- Coordinator invariant for a run over a globally well-formed remote:
every identifier already dispatched for a field is a member of that
field's target collection in the current remote state, and the remote
stays well-formed. -/
def CInv (tm : String → Int) (rs : RunState) : Prop :=
  (∀ p, ∀ id ∈ rs.dispatched p,
    memberVal (rs.world id) (tm p) = true) ∧
  (∀ id, wfVal (rs.world id) = true)

theorem dispApply_mono (ext : String → ExtState) :
    ∀ (ps : List String) (d : String → List Json) (p : String),
    ∃ t, dispApply ext ps d p = d p ++ t := by
  intro ps
  induction ps with
  | nil => intro d p; exact ⟨[], by simp [dispApply]⟩
  | cons q ps ih =>
    intro d p
    obtain ⟨t, ht⟩ := ih (updMap d q (d q ++ (ext q).pageNew)) p
    simp only [dispApply]
    rw [ht]
    by_cases hpq : p = q
    · subst hpq
      refine ⟨(ext p).pageNew ++ t, ?_⟩
      simp [updMap]
    · refine ⟨t, ?_⟩
      simp [updMap, hpq]

theorem dispApply_mem (ext : String → ExtState) :
    ∀ (ps : List String) (d : String → List Json) (p : String),
    p ∈ ps → ∀ id ∈ (ext p).pageNew, id ∈ dispApply ext ps d p := by
  intro ps
  induction ps with
  | nil => intro d p hp; cases hp
  | cons q ps ih =>
    intro d p hp id hid
    simp only [dispApply]
    by_cases hp2 : p ∈ ps
    · exact ih _ p hp2 id hid
    · have hpq : p = q := by
        rcases List.mem_cons.mp hp with h | h
        · exact h
        · exact absurd h hp2
      subst hpq
      obtain ⟨t, ht⟩ := dispApply_mono ext ps
        (updMap d p (d p ++ (ext p).pageNew)) p
      rw [ht]
      have hu : (updMap d p (d p ++ (ext p).pageNew)) p =
          d p ++ (ext p).pageNew := by simp [updMap]
      rw [hu]
      exact List.mem_append_left _ (List.mem_append_right _ hid)

theorem processPage_disp_mono {apiUrl : String} {fields : List String}
    {tm : String → Int} {rs rs' : RunState} {pg : Nat × List Json}
    (h : processPage apiUrl fields tm rs pg = .ok rs') (p : String) :
    ∃ t, rs'.dispatched p = rs.dispatched p ++ t := by
  unfold processPage at h
  cases hx : extractPage fields pg.2 (resetPage rs.ext) with
  | error e => rw [hx] at h; cases h
  | ok ext1 =>
    rw [hx] at h
    have hb := dispatchLoop_basic apiUrl tm fields _ rs' h
    rw [hb.2]
    exact dispApply_mono _ fields _ p

theorem streamFold_disp_mono {apiUrl : String} {fields : List String}
    {tm : String → Int} :
    ∀ (pages : List (Nat × List Json)) (rs rs' : RunState),
    streamFold apiUrl fields tm rs pages = .ok rs' →
    ∀ p, ∃ t, rs'.dispatched p = rs.dispatched p ++ t := by
  intro pages
  induction pages with
  | nil =>
    intro rs rs' h p
    cases h
    exact ⟨[], by simp⟩
  | cons pg pgs ih =>
    intro rs rs' h p
    unfold streamFold at h
    cases hp : processPage apiUrl fields tm rs pg with
    | error e => rw [hp] at h; cases h
    | ok rs1 =>
      rw [hp] at h
      obtain ⟨t1, ht1⟩ := processPage_disp_mono hp p
      obtain ⟨t2, ht2⟩ := ih rs1 rs' h p
      exact ⟨t1 ++ t2, by rw [ht2, ht1, List.append_assoc]⟩

theorem dispatchLoop_cinv {apiUrl : String} {tm : String → Int} :
    ∀ (ps : List String) (rs rs' : RunState),
    CInv tm rs → dispatchLoop apiUrl tm rs ps = .ok rs' →
    CInv tm rs' := by
  intro ps
  induction ps with
  | nil => intro rs rs' hI h; cases h; exact hI
  | cons p ps ih =>
    intro rs rs' hI h
    unfold dispatchLoop at h
    by_cases he : ((rs.ext p).pageNew).isEmpty
    · rw [if_pos he] at h
      exact ih rs rs' hI h
    · rw [if_neg he] at h
      obtain ⟨bs, w', tr, ha, hmem, hpres, hw⟩ :=
        @add_items_wf apiUrl rs.world ((rs.ext p).pageNew) (tm p)
          (fun id _ => hI.2 id)
      rw [ha] at h
      refine ih _ rs' ?_ h
      constructor
      · intro q id hid
        have hid' : id ∈ updMap rs.dispatched p
            (rs.dispatched p ++ (rs.ext p).pageNew) q := hid
        show memberVal (w' id) (tm q) = true
        by_cases hqp : q = p
        · subst hqp
          have hu : updMap rs.dispatched q
              (rs.dispatched q ++ (rs.ext q).pageNew) q =
              rs.dispatched q ++ (rs.ext q).pageNew := by simp [updMap]
          rw [hu] at hid'
          rcases List.mem_append.mp hid' with h1 | h1
          · exact hpres id (tm q) (hI.1 q id h1)
          · exact hmem id h1
        · have hu : updMap rs.dispatched p
              (rs.dispatched p ++ (rs.ext p).pageNew) q =
              rs.dispatched q := by simp [updMap, hqp]
          rw [hu] at hid'
          exact hpres id (tm q) (hI.1 q id hid')
      · intro id
        exact hw id (hI.2 id)

theorem processPage_cinv {apiUrl : String} {fields : List String}
    {tm : String → Int} {rs rs' : RunState} {pg : Nat × List Json}
    (h : processPage apiUrl fields tm rs pg = .ok rs')
    (hI : CInv tm rs) : CInv tm rs' := by
  unfold processPage at h
  cases hx : extractPage fields pg.2 (resetPage rs.ext) with
  | error e => rw [hx] at h; cases h
  | ok ext1 =>
    rw [hx] at h
    refine dispatchLoop_cinv fields _ rs' ?_ h
    exact ⟨hI.1, hI.2⟩

theorem streamFold_cinv {apiUrl : String} {fields : List String}
    {tm : String → Int} :
    ∀ (pages : List (Nat × List Json)) (rs rs' : RunState),
    streamFold apiUrl fields tm rs pages = .ok rs' →
    CInv tm rs → CInv tm rs' := by
  intro pages
  induction pages with
  | nil => intro rs rs' h hI; cases h; exact hI
  | cons pg pgs ih =>
    intro rs rs' h hI
    unfold streamFold at h
    cases hp : processPage apiUrl fields tm rs pg with
    | error e => rw [hp] at h; cases h
    | ok rs1 =>
      rw [hp] at h
      exact ih rs1 rs' h (processPage_cinv hp hI)

theorem addItemsLoop_member {apiUrl : String} {c : Int} :
    ∀ (ids : List Json) (ws : WriterState),
    (∀ id ∈ ids, memberVal (ws.world id) c = true) →
    ∃ ws', addItemsLoop apiUrl c ws ids = .ok ws' ∧
      ws'.world = ws.world ∧ ws'.success = ws.success + ids.length ∧
      ws'.already = ws.already + ids.length ∧ ws'.errors = ws.errors := by
  intro ids
  induction ids with
  | nil =>
    intro ws _
    exact ⟨ws, rfl, rfl, by simp, by simp, rfl⟩
  | cons id0 ids ih =>
    intro ws hm
    have h1 := @addOneItem_member apiUrl c ws id0
      (hm id0 (List.mem_cons_self id0 ids))
    obtain ⟨ws', h2, hw, hs, ha, he⟩ := ih
      { ws with
        already := ws.already + 1
        success := ws.success + 1
        trace := ws.trace ++ [.getItem id0] }
      (fun id hid => hm id (List.mem_cons_of_mem _ hid))
    refine ⟨ws', ?_, hw, ?_, ?_, he⟩
    · unfold addItemsLoop
      rw [h1]
      exact h2
    · rw [hs]
      show ws.success + 1 + ids.length = ws.success + (ids.length + 1)
      omega
    · rw [ha]
      show ws.already + 1 + ids.length = ws.already + (ids.length + 1)
      omega

theorem add_items_member {apiUrl : String} {world : World}
    {ids : List Json} {c : Int}
    (hm : ∀ id ∈ ids, memberVal (world id) c = true) :
    ∃ tr, add_items_to_itemset apiUrl world ids c =
      .ok (⟨0, ids.length, 0⟩, world, tr) := by
  obtain ⟨ws', h, hw, hs, ha, he⟩ :=
    @addItemsLoop_member apiUrl c ids ⟨world, 0, 0, 0, []⟩ hm
  refine ⟨ws'.trace, ?_⟩
  unfold add_items_to_itemset
  rw [h]
  show (Except.ok ((⟨ws'.success - ws'.already, ws'.already, ws'.errors⟩ :
      AddStats), ws'.world, ws'.trace) :
      Except Unit (AddStats × World × List RemoteOp)) =
    .ok ((⟨0, ids.length, 0⟩ : AddStats), world, ws'.trace)
  rw [hw, hs, ha, he]
  simp

/-- Run-two statistics shape: nothing added, no errors, and the skipped
counter counts exactly the dispatched identifiers. -/
def AllSkipped (rs : RunState) : Prop :=
  ∀ p, (rs.stats p).added = 0 ∧ (rs.stats p).errors = 0 ∧
    (rs.stats p).skipped = (rs.dispatched p).length

theorem dispatchLoop_member_run {apiUrl : String} {tm : String → Int} :
    ∀ (ps : List String) (rsB : RunState),
    (∀ p ∈ ps, ∀ id ∈ (rsB.ext p).pageNew,
      memberVal (rsB.world id) (tm p) = true) →
    AllSkipped rsB →
    ∃ rsB', dispatchLoop apiUrl tm rsB ps = .ok rsB' ∧
      rsB'.world = rsB.world ∧ rsB'.ext = rsB.ext ∧
      rsB'.dispatched = dispApply rsB.ext ps rsB.dispatched ∧
      AllSkipped rsB' := by
  intro ps
  induction ps with
  | nil =>
    intro rsB hm hK
    exact ⟨rsB, rfl, rfl, rfl, rfl, hK⟩
  | cons p ps ih =>
    intro rsB hm hK
    by_cases he : ((rsB.ext p).pageNew).isEmpty
    · obtain ⟨rsB', h1, h2, h3, h4, h5⟩ := ih rsB
        (fun q hq id hid => hm q (List.mem_cons_of_mem p hq) id hid) hK
      refine ⟨rsB', ?_, h2, h3, ?_, h5⟩
      · unfold dispatchLoop
        rw [if_pos he]
        exact h1
      · rw [h4]
        simp only [dispApply]
        rw [List.isEmpty_iff.mp he, List.append_nil, updMap_id]
    · obtain ⟨trB, hb⟩ := @add_items_member apiUrl rsB.world
        ((rsB.ext p).pageNew) (tm p)
        (fun id hid => hm p (List.mem_cons_self p ps) id hid)
      have hK1 : AllSkipped
          { rsB with
            world := rsB.world
            trace := rsB.trace ++ trB
            dispatched := updMap rsB.dispatched p
              (rsB.dispatched p ++ (rsB.ext p).pageNew)
            stats := updMap rsB.stats p
              ⟨(rsB.stats p).found, (rsB.stats p).added + 0,
               (rsB.stats p).skipped + ((rsB.ext p).pageNew).length,
               (rsB.stats p).errors + 0⟩ } := by
        intro q
        by_cases hqp : q = p
        · subst hqp
          refine ⟨?_, ?_, ?_⟩
          · show (updMap rsB.stats q
              (⟨(rsB.stats q).found, (rsB.stats q).added + 0,
               (rsB.stats q).skipped + ((rsB.ext q).pageNew).length,
               (rsB.stats q).errors + 0⟩ : Stats) q).added = 0
            simp [updMap, (hK q).1]
          · show (updMap rsB.stats q
              (⟨(rsB.stats q).found, (rsB.stats q).added + 0,
               (rsB.stats q).skipped + ((rsB.ext q).pageNew).length,
               (rsB.stats q).errors + 0⟩ : Stats) q).errors = 0
            simp [updMap, (hK q).2.1]
          · show (updMap rsB.stats q
              (⟨(rsB.stats q).found, (rsB.stats q).added + 0,
               (rsB.stats q).skipped + ((rsB.ext q).pageNew).length,
               (rsB.stats q).errors + 0⟩ : Stats) q).skipped =
              ((updMap rsB.dispatched q
                (rsB.dispatched q ++ (rsB.ext q).pageNew)) q).length
            simp [updMap, (hK q).2.2, List.length_append]
        · refine ⟨?_, ?_, ?_⟩
          · show (updMap rsB.stats p _ q).added = 0
            simp only [updMap, if_neg hqp]
            exact (hK q).1
          · show (updMap rsB.stats p _ q).errors = 0
            simp only [updMap, if_neg hqp]
            exact (hK q).2.1
          · show (updMap rsB.stats p _ q).skipped =
              ((updMap rsB.dispatched p _ ) q).length
            simp only [updMap, if_neg hqp]
            exact (hK q).2.2
      obtain ⟨rsB', h1, h2, h3, h4, h5⟩ := ih
        { rsB with
          world := rsB.world
          trace := rsB.trace ++ trB
          dispatched := updMap rsB.dispatched p
            (rsB.dispatched p ++ (rsB.ext p).pageNew)
          stats := updMap rsB.stats p
            ⟨(rsB.stats p).found, (rsB.stats p).added + 0,
             (rsB.stats p).skipped + ((rsB.ext p).pageNew).length,
             (rsB.stats p).errors + 0⟩ }
        (fun q hq id hid => hm q (List.mem_cons_of_mem p hq) id hid) hK1
      refine ⟨rsB', ?_, h2, h3, ?_, h5⟩
      · unfold dispatchLoop
        rw [if_neg he, hb]
        exact h1
      · rw [h4]
        simp only [dispApply]

theorem streamFold_parallel {apiUrl : String} {fields : List String}
    {tm : String → Int} :
    ∀ (pages : List (Nat × List Json)) (rsA rsB rsA' : RunState),
    streamFold apiUrl fields tm rsA pages = .ok rsA' →
    rsB.ext = rsA.ext → rsB.dispatched = rsA.dispatched →
    (∀ p, ∀ id ∈ rsA'.dispatched p,
      memberVal (rsB.world id) (tm p) = true) →
    AllSkipped rsB →
    ∃ rsB', streamFold apiUrl fields tm rsB pages = .ok rsB' ∧
      rsB'.world = rsB.world ∧ rsB'.ext = rsA'.ext ∧
      rsB'.dispatched = rsA'.dispatched ∧ AllSkipped rsB' := by
  intro pages
  induction pages with
  | nil =>
    intro rsA rsB rsA' h hext hdisp hm hK
    cases h
    exact ⟨rsB, rfl, rfl, hext, hdisp, hK⟩
  | cons pg pgs ih =>
    intro rsA rsB rsA' h hext hdisp hm hK
    unfold streamFold at h
    cases hp : processPage apiUrl fields tm rsA pg with
    | error e => rw [hp] at h; cases h
    | ok rsA1 =>
      rw [hp] at h
      unfold processPage at hp
      cases hx : extractPage fields pg.2 (resetPage rsA.ext) with
      | error e => rw [hx] at hp; cases hp
      | ok ext1 =>
        rw [hx] at hp
        have hbA := dispatchLoop_basic apiUrl tm fields _ rsA1 hp
        have hxB : extractPage fields pg.2 (resetPage rsB.ext) =
            .ok ext1 := by
          rw [hext]
          exact hx
        have hmB : ∀ p ∈ fields, ∀ id ∈ (ext1 p).pageNew,
            memberVal (rsB.world id) (tm p) = true := by
          intro p hpf id hid
          refine hm p id ?_
          have h1 : id ∈ rsA1.dispatched p := by
            rw [hbA.2]
            exact dispApply_mem _ fields _ p hpf id hid
          obtain ⟨t, ht⟩ := streamFold_disp_mono pgs rsA1 rsA' h p
          rw [ht]
          exact List.mem_append_left t h1
        obtain ⟨rsB1, hl, hw1, he1, hd1, hK1⟩ :=
          @dispatchLoop_member_run apiUrl tm fields
            { rsB with ext := ext1, trace := rsB.trace ++ [.getPage pg.1] }
            hmB hK
        have hpB : processPage apiUrl fields tm rsB pg = .ok rsB1 := by
          unfold processPage
          rw [hxB]
          exact hl
        obtain ⟨rsB', h2, hw2, he2, hd2, hK2⟩ := ih rsA1 rsB1 rsA' h
          (by rw [he1, hbA.1])
          (by
            rw [hd1, hbA.2]
            show dispApply ext1 fields rsB.dispatched =
              dispApply ext1 fields rsA.dispatched
            rw [hdisp])
          (fun p id hid => by
            rw [hw1]
            exact hm p id hid)
          hK1
        refine ⟨rsB', ?_, ?_, he2, hd2, hK2⟩
        · unfold streamFold
          rw [hpB]
          exact h2
        · rw [hw2, hw1]

/-- The second run of the pipeline classifies every dispatched
identifier as already-present: nothing added, no errors, skipped equals
found, and the remote state is left exactly as the first run left it. -/
def SecondRunAllSkipped (apiUrl : String) (fields : List String)
    (tm : String → Int) (W0 : World)
    (pages : List (Nat × List Json)) : Prop :=
  ∀ rs1, streamRun apiUrl fields tm W0 pages = .ok rs1 →
    ∃ rs2, streamRun apiUrl fields tm rs1.world pages = .ok rs2 ∧
      rs2.world = rs1.world ∧
      ∀ p, (returnedStats rs2 p).added = 0 ∧
        (returnedStats rs2 p).errors = 0 ∧
        (returnedStats rs2 p).skipped = (returnedStats rs2 p).found

/-- C3: running the pipeline twice over the same pages against a
well-formed remote yields added = 0 on the second run — every identifier
dispatched on the second run is classified already-present, no error
occurs, and the remote is not modified again. -/
theorem second_run_idempotent (apiUrl : String) (fields : List String)
    (tm : String → Int) (W0 : World) (pages : List (Nat × List Json))
    (hNd : fields.Nodup) (hwf : ∀ id, wfVal (W0 id) = true) :
    SecondRunAllSkipped apiUrl fields tm W0 pages := by
  intro rs1 h1
  have hc : CInv tm rs1 := streamFold_cinv pages _ rs1 h1
    ⟨fun p id hid => absurd hid (List.not_mem_nil id), hwf⟩
  obtain ⟨rs2, h2, hw2, he2, hd2, hK2⟩ :=
    streamFold_parallel pages (initRun W0) (initRun rs1.world) rs1 h1
      rfl rfl (fun p id hid => hc.1 p id hid)
      (fun p => ⟨rfl, rfl, rfl⟩)
  have hRI : RunInv rs2 := streamFold_runInv hNd pages _ rs2 h2
    (runInv_init _)
  refine ⟨rs2, h2, hw2, ?_⟩
  intro p
  obtain ⟨hdp, hnd, hfp⟩ := hRI p
  obtain ⟨ha, he, hsk⟩ := hK2 p
  refine ⟨ha, he, ?_⟩
  show (rs2.stats p).skipped = (rs2.ext p).found
  rw [hsk, hdp, hfp]

theorem second_run_idempotent_witness :
    SecondRunAllSkipped "https://example.com/api" ["rcl:artist"]
      (fun _ => 5)
      (fun _ => some (Json.obj [("o:item_set", Json.arr [])]))
      [(1, [Json.obj [("rcl:artist", Json.arr [Json.obj
        [("type", Json.str "resource:item"),
         ("value_resource_id", Json.num 77)]])]])] :=
  second_run_idempotent "https://example.com/api" ["rcl:artist"]
    (fun _ => 5) (fun _ => some (Json.obj [("o:item_set", Json.arr [])]))
    [(1, [Json.obj [("rcl:artist", Json.arr [Json.obj
      [("type", Json.str "resource:item"),
       ("value_resource_id", Json.num 77)]])]])]
    (by decide) (fun _ => rfl)

end Omeka
